import Mathlib

/-!
Verification of the directed-hypergraph knowledge store
(`hypergraph2.py`, `helper_functions.py`, `ragsystem2.py`).

The embedder (`SentenceTransformer.encode`) and the metric of the vector
index (`faiss.IndexFlatL2`) are external collaborators; every definition
below is parametrised by an abstract vector type `V`, an embedding
function `emb : String → V` and a distance `dist : V → V → ℚ` (the
distance reported by the index for a query vector and a stored vector).
All other behaviour is translated directly from the Python source.
-/

namespace DHG

/-- The duplicate threshold `0.0001 = 1/10000` used in
`Hypergraph.add_node`. -/
def dupEps : ℚ := mkRat 1 10000

/-- A character matched by the regex class `\w` (ASCII range): letters,
digits and underscore.  `helper_functions.py` removes every character
matching `[^\w\s]`. -/
def isWordChar (c : Char) : Bool := c.isAlpha || c.isDigit || c == '_'

/-- Python `str.strip()` on a character list: drop leading and trailing
whitespace. -/
def stripChars (cs : List Char) : List Char :=
  ((cs.dropWhile Char.isWhitespace).reverse.dropWhile Char.isWhitespace).reverse

/-- ASCII lower-casing of one character (Python `str.lower` on the ASCII
texts considered here). -/
def lowerChar (c : Char) : Char :=
  if 'A' ≤ c ∧ c ≤ 'Z' then Char.ofNat (c.toNat + 32) else c

/-- `helper_functions.clean_string`: strip leading/trailing whitespace,
remove punctuation (`re.sub(r"[^\w\s]", "", ·)`), lower-case. -/
def clean_string (s : String) : String :=
  String.mk
    (((stripChars s.toList).filter
        (fun c => isWordChar c || c.isWhitespace)).map lowerChar)

/-- Python `str.strip()`. -/
def pyStrip (s : String) : String := String.mk (stripChars s.toList)

/-- The `non_blank` / blank-string test of the `parameters_validation`
decorators: a string is blank when it is empty or strips to empty. -/
def isBlank (s : String) : Bool := pyStrip s = ""

/-- A `Node` of `hypergraph2.py`: unique id (`uuid.uuid4()`, modelled as a
`Nat` drawn from a fresh counter), displayed `data`, and the sequence
number `node_number`. -/
structure Node where
  id : Nat
  data : String
  node_number : Nat
deriving DecidableEq, Repr

/-- A `Hyperedge`: unique id, source and target node sets (Python sets of
`Node` objects, modelled as lists in insertion order), and the relation
label. -/
structure Hyperedge where
  id : Nat
  sources : List Node
  targets : List Node
  relation : String
deriving DecidableEq, Repr

/-- An entry of the parallel list `Hypergraph._index_objs`, which mixes
the two entity kinds. -/
inductive Entity where
  | node : Node → Entity
  | edge : Hyperedge → Entity
deriving DecidableEq, Repr

/-- The id attribute, available on both entity kinds. -/
def Entity.idOf : Entity → Nat
  | .node n => n.id
  | .edge e => e.id

/-- The `Hypergraph` state: node and edge stores (Python dicts in
insertion order), the counters `n_nodes`/`n_edges`, the faiss index
contents (`indexVecs`), the parallel object list `_index_objs`, and the
counter supplying fresh ids. -/
structure Hypergraph (V : Type) where
  nodes : List Node
  edges : List Hyperedge
  n_nodes : Nat
  n_edges : Nat
  indexVecs : List V
  index_objs : List Entity
  nextId : Nat
deriving DecidableEq, Repr

/-- `Hypergraph.__init__`: empty stores, zero counters, empty index. -/
def Hypergraph.init (V : Type) : Hypergraph V :=
  { nodes := [], edges := [], n_nodes := 0, n_edges := 0,
    indexVecs := [], index_objs := [], nextId := 0 }

/-- Exact nearest-neighbour search with `k = 1` (`IndexFlatL2.search` with
one result): the slot of minimal distance to the query, earlier slots
winning ties, together with that distance.  `none` on an empty index
(faiss then reports label `-1` with distance `FLT_MAX`, which the caller
`add_node` treats as "no duplicate"). -/
def nearest1Aux {V : Type} (dist : V → V → ℚ) (q : V) :
    List V → Nat → Option (Nat × ℚ)
  | [], _ => none
  | v :: vs, i =>
    match nearest1Aux dist q vs (i + 1) with
    | none => some (i, dist q v)
    | some (bj, bd) =>
      if dist q v ≤ bd then some (i, dist q v) else some (bj, bd)

/-- Nearest slot of the index for a query vector. -/
def nearest1 {V : Type} (dist : V → V → ℚ) (q : V) (vecs : List V) :
    Option (Nat × ℚ) :=
  nearest1Aux dist q vecs 0

/-- Fallback entity used to make list lookup total; every theorem below
supplies bounds under which it is never read. -/
def dummyEntity : Entity := Entity.node { id := 0, data := "", node_number := 0 }

/-- `Hypergraph.add_node`.  The code searches the index with the embedding
of the *raw* `data`; if the reported nearest distance exceeds `0.0001`
(or the index is empty) it creates a new `Node`, indexes the embedding of
the *cleaned* text and returns the node, otherwise it returns the entry
of `_index_objs` at the nearest slot (typed as a `Node` in the source,
although the shared index can also hold a `Hyperedge` there). -/
def Hypergraph.add_node {V : Type} (dist : V → V → ℚ) (emb : String → V)
    (g : Hypergraph V) (data : String) : Entity × Hypergraph V :=
  let hit : Option Nat :=
    match nearest1 dist (emb data) g.indexVecs with
    | none => none
    | some (i, d) => if dupEps < d then none else some i
  match hit with
  | none =>
    let node : Node := { id := g.nextId, data := data, node_number := g.n_nodes }
    (Entity.node node,
      { g with
          nodes := g.nodes ++ [node],
          indexVecs := g.indexVecs ++ [emb (clean_string data)],
          index_objs := g.index_objs ++ [Entity.node node],
          n_nodes := g.n_nodes + 1,
          nextId := g.nextId + 1 })
  | some i => (g.index_objs.getD i dummyEntity, g)

/-- The composite description string indexed by `Hypergraph.add_edge`. -/
def indexTermOf (sources targets : List Node) (relation : String) : String :=
  String.intercalate ", " (sources.map (fun n => clean_string n.data))
    ++ " - " ++ relation ++ " - "
    ++ String.intercalate ", " (targets.map (fun n => clean_string n.data))

/-- `Hypergraph.add_edge`: always creates and stores a new `Hyperedge`,
indexes the embedding of the composite description, and bumps
`n_edges`. -/
def Hypergraph.add_edge {V : Type} (emb : String → V) (g : Hypergraph V)
    (sources targets : List Node) (relation : String) :
    Hyperedge × Hypergraph V :=
  let edge : Hyperedge :=
    { id := g.nextId, sources := sources, targets := targets, relation := relation }
  (edge,
    { g with
        edges := g.edges ++ [edge],
        indexVecs := g.indexVecs ++ [emb (indexTermOf sources targets relation)],
        index_objs := g.index_objs ++ [Entity.edge edge],
        n_edges := g.n_edges + 1,
        nextId := g.nextId + 1 })

/-- Stable insertion of one element into a list sorted by the boolean
relation `le` (used to model the ascending-distance order in which
`IndexFlatL2.search` reports its results). -/
def insertLe {α : Type} (le : α → α → Bool) (a : α) : List α → List α
  | [] => [a]
  | b :: bs => if le a b then a :: b :: bs else b :: insertLe le a bs

/-- Stable sort by `le` (insertion sort). -/
def sortLe {α : Type} (le : α → α → Bool) (xs : List α) : List α :=
  xs.foldr (insertLe le) []

/-- The comparison used to rank index slots for a query vector: ascending
distance, ties broken towards the earlier slot. -/
def slotLe {V : Type} (dist : V → V → ℚ) (q : V) (vecs : List V)
    (i j : Nat) : Bool :=
  let di := dist q (vecs.getD i q)
  let dj := dist q (vecs.getD j q)
  decide (di < dj) || (decide (di = dj) && decide (i ≤ j))

/-- The label row `I[0]` returned by `IndexFlatL2.search` for one query
and `k` requested results: the slots sorted by ascending distance,
truncated to `k`, padded with the label `-1` (paired with `FLT_MAX`) when
`k` exceeds the index size. -/
def searchTopK {V : Type} (dist : V → V → ℚ) (q : V) (vecs : List V)
    (k : Nat) : List Int :=
  ((sortLe (slotLe dist q vecs) (List.range vecs.length)).take k).map Int.ofNat
    ++ List.replicate (k - vecs.length) (-1)

/-- Python list indexing `xs[i]`: non-negative indices from the front,
negative indices from the back, `IndexError` (modelled as `none`) when
out of range.  `Hypergraph.query` hits the negative case through the
`-1` padding labels of a short index. -/
def pyIndex {α : Type} (xs : List α) (i : Int) : Option α :=
  if 0 ≤ i then xs.get? i.toNat
  else if (-i).toNat ≤ xs.length then xs.get? (xs.length - (-i).toNat)
  else none

/-- Python `set.add`, on lists kept in first-insertion order. -/
def setAdd {α : Type} [DecidableEq α] (xs : List α) (a : α) : List α :=
  if a ∈ xs then xs else xs ++ [a]

/-- `Hypergraph.query`: search the index for `top_k` results, resolve
every returned label through `_index_objs` (Python list indexing, so the
padding label `-1` resolves to the *last* stored object, and raises
`IndexError` — modelled as `none` — on an empty object list), and
partition the resolved entities into a node set and an edge set. -/
def Hypergraph.query {V : Type} (dist : V → V → ℚ) (emb : String → V)
    (g : Hypergraph V) (criteria : String) (top_k : Nat) :
    Option (List Node × List Hyperedge) :=
  match (searchTopK dist (emb criteria) g.indexVecs top_k).mapM
      (pyIndex g.index_objs) with
  | none => none
  | some results =>
    some (results.foldl
      (fun (acc : List Node × List Hyperedge) r =>
        match r with
        | Entity.node n => (setAdd acc.1 n, acc.2)
        | Entity.edge e => (acc.1, setAdd acc.2 e))
      ([], []))

/-- One cell update of the incidence matrix `H[r][c] = v`
(`numpy` assignment, modelled on total functions). -/
def setEntry (H : Nat → Nat → Int) (r c : Nat) (v : Int) :
    Nat → Nat → Int :=
  fun r' c' => if r' = r ∧ c' = c then v else H r' c'

/-- The loop `for node in ...: H[node.node_number][edge_pos] = v` of
`Hypergraph.save`; `none` models the `IndexError` numpy raises when a
node's sequence number falls outside the allocated `n_nodes` rows or the
column outside the `n_edges` columns. -/
def writeCol (nRows nCols : Nat) (v : Int) (ns : List Node) (c : Nat)
    (H : Nat → Nat → Int) : Option (Nat → Nat → Int) :=
  ns.foldlM
    (fun H n =>
      if n.node_number < nRows ∧ c < nCols then
        some (setEntry H n.node_number c v)
      else none)
    H

/-- The incidence matrix built by `Hypergraph.save`: starting from
`np.zeros((n_nodes, n_edges))`, each stored edge writes `+1` at its
sources and then `-1` at its targets in its own column `edge_pos`,
columns following dict insertion order. -/
def incidenceFun {V : Type} (g : Hypergraph V) :
    Option (Nat → Nat → Int) :=
  match g.edges.foldlM
      (fun (acc : (Nat → Nat → Int) × Nat) e => do
        let h1 ← writeCol g.n_nodes g.n_edges 1 e.sources acc.2 acc.1
        let h2 ← writeCol g.n_nodes g.n_edges (-1) e.targets acc.2 h1
        pure (h2, acc.2 + 1))
      ((fun _ _ => 0), 0) with
  | none => none
  | some acc => some acc.1

/-- The matrix `H` written to `incidence_matrix_path`, as a list of
`n_nodes` rows of `n_edges` signed entries. -/
def savedMatrix {V : Type} (g : Hypergraph V) : Option (List (List Int)) :=
  match incidenceFun g with
  | none => none
  | some H =>
    some ((List.range g.n_nodes).map
      (fun r => (List.range g.n_edges).map (fun c => H r c)))

/-- Outcome of `RAGSystem.add_knowledge`: the silent no-op, the
validation `Exception`, the `AttributeError` crash reached when a slot
holding a `Hyperedge` is returned by `add_node` (a `Hyperedge` has no
`.data`, so building the edge's composite index string fails), or the
normal return.  The state-carrying constructors record the hypergraph
the caller observes afterwards. -/
inductive KnowledgeOutcome (V : Type) where
  | noop : Hypergraph V → KnowledgeOutcome V
  | invalid : Hypergraph V → KnowledgeOutcome V
  | crashed : KnowledgeOutcome V
  | added : Hyperedge → Hypergraph V → KnowledgeOutcome V
deriving DecidableEq

/-- The loops of `RAGSystem.add_knowledge` collecting the result of
`Hypergraph.add_node` for each concept into a Python set. -/
def collectNodes {V : Type} (dist : V → V → ℚ) (emb : String → V) :
    List String → Hypergraph V → List Node →
    Option (List Node × Hypergraph V)
  | [], g, acc => some (acc, g)
  | c :: cs, g, acc =>
    match Hypergraph.add_node dist emb g c with
    | (Entity.node n, g') => collectNodes dist emb cs g' (setAdd acc n)
    | (Entity.edge _, _) => none

/-- `RAGSystem.add_knowledge`: the `non_blank` validator rejects a blank
`relation`; empty concept lists return silently; a source concept whose
cleaned form equals some cleaned target concept raises the validation
`Exception`; otherwise both concept lists are turned into node sets via
`add_node` and a single hyperedge is created. -/
def RAGSystem.add_knowledge {V : Type} (dist : V → V → ℚ)
    (emb : String → V) (g : Hypergraph V)
    (concepts related_concepts : List String) (relation : String) :
    KnowledgeOutcome V :=
  if isBlank relation then .invalid g
  else if concepts.isEmpty || related_concepts.isEmpty then .noop g
  else if concepts.any
      (fun c => (related_concepts.map clean_string).contains (clean_string c)) then
    .invalid g
  else
    match collectNodes dist emb concepts g [] with
    | none => .crashed
    | some (sources, g1) =>
      match collectNodes dist emb related_concepts g1 [] with
      | none => .crashed
      | some (targets, g2) =>
        let r := Hypergraph.add_edge emb g2 sources targets relation
        .added r.1 r.2

/-- The Python `top_k` argument of `RAGSystem.retrieve`, which may be a
non-integer (rejected by the `isinstance` check). -/
inductive PyTopK where
  | int : Int → PyTopK
  | notAnInt : PyTopK
deriving DecidableEq

/-- Outcome of `RAGSystem.retrieve`: the validation `Exception`, the
`IndexError` escaping from `Hypergraph.query` on an empty index, or the
returned knowledge string. -/
inductive RetrieveResult where
  | invalidArg : RetrieveResult
  | crashed : RetrieveResult
  | ok : String → RetrieveResult
deriving DecidableEq

/-- The bullet line emitted for one retrieved edge. -/
def edgeLineStr (e : Hyperedge) : String :=
  "* " ++ String.intercalate ", " (e.sources.map Node.data)
    ++ " - " ++ e.relation ++ " - "
    ++ String.intercalate ", " (e.targets.map Node.data) ++ "\n"

/-- The ids registered in `seen_nodes` by one retrieved edge. -/
def edgeSeenIds (e : Hyperedge) : List Nat :=
  e.sources.map Node.id ++ e.targets.map Node.id

/-- `RAGSystem.retrieve`: the `non_blank` validator rejects a blank
query; `top_k` must be a positive integer; the hypergraph is queried;
each returned edge is emitted as a bullet while its nodes are marked
seen; each returned node not seen in any edge is emitted as an isolated
bullet. -/
def RAGSystem.retrieve {V : Type} (dist : V → V → ℚ) (emb : String → V)
    (g : Hypergraph V) (query : String) (top_k : PyTopK) :
    RetrieveResult :=
  if isBlank query then .invalidArg
  else
    match top_k with
    | .notAnInt => .invalidArg
    | .int k =>
      if k ≤ 0 then .invalidArg
      else
        match Hypergraph.query dist emb g query k.toNat with
        | none => .crashed
        | some (ns, es) =>
          let part := es.foldl
            (fun (acc : String × List Nat) e =>
              (acc.1 ++ edgeLineStr e, acc.2 ++ edgeSeenIds e))
            ("", [])
          .ok (ns.foldl
            (fun acc n =>
              if part.2.contains n.id then acc
              else acc ++ "* " ++ n.data ++ "\n")
            part.1)

/-- The hypergraph states reachable from a fresh `Hypergraph()` by
completed `add_node` and `add_edge` calls. -/
inductive Reachable {V : Type} (dist : V → V → ℚ) (emb : String → V) :
    Hypergraph V → Prop where
  | init : Reachable dist emb (Hypergraph.init V)
  | addNodeStep : ∀ (g : Hypergraph V) (s : String),
      Reachable dist emb g →
      Reachable dist emb (Hypergraph.add_node dist emb g s).2
  | addEdgeStep : ∀ (g : Hypergraph V) (ss ts : List Node) (rel : String),
      Reachable dist emb g →
      Reachable dist emb (Hypergraph.add_edge emb g ss ts rel).2

/-- A concrete embedder instance used for witnesses and counterexamples:
vectors are the raw strings themselves, and the index metric reports
distance `0` between two strings whose cleaned forms agree and `1`
otherwise — the ideal case in which embedding proximity coincides with
equality of the normalised text. -/
def strEmb : String → String := id

/-- Distance of the concrete embedder instance. -/
def strDist (a b : String) : ℚ :=
  if clean_string a = clean_string b then 0 else 1

/-- A `top_k` argument that is not a positive integer (zero, negative,
or not an integer at all). -/
def notPosTopK : PyTopK → Prop
  | .notAnInt => True
  | .int n => n ≤ 0

/-- Resolution of one faiss label through the object list, as a total
function (how `query` reads `_index_objs[i]` when the read succeeds). -/
def labelEntity (objs : List Entity) (i : Int) : Entity :=
  if 0 ≤ i then objs.getD i.toNat dummyEntity
  else objs.getD (objs.length - (-i).toNat) dummyEntity

/-- Projection of an index-slot entity to a node, when it is one. -/
def asNode : Entity → Option Node
  | .node n => some n
  | .edge _ => none

/-- Projection of an index-slot entity to a hyperedge, when it is one. -/
def asEdge : Entity → Option Hyperedge
  | .node _ => none
  | .edge e => some e

/-- Whether some node of the list carries the sequence number `r`. -/
def hasNum (ns : List Node) (r : Nat) : Bool :=
  ns.any (fun n => n.node_number == r)

/-- The value row `r` of one edge's incidence column ends up with, given
the previous value of that cell: targets are written after sources, so a
target match wins. -/
def colEntry (e : Hyperedge) (r : Nat) (prev : Int) : Int :=
  if hasNum e.targets r then -1 else if hasNum e.sources r then 1 else prev

/-- The index of `g` is the image under `emb` of a list of strings `ss`
in which node slots hold the node's cleaned text and edge slots hold the
edge's composite description — what the `add_node`/`add_edge` code
actually feeds to the embedder. -/
def SlotSpec (ss : List String) (objs : List Entity) : Prop :=
  ∀ i, ∀ h1 : i < ss.length, ∀ h2 : i < objs.length,
    (∀ n : Node, objs.get ⟨i, h2⟩ = Entity.node n →
      ss.get ⟨i, h1⟩ = clean_string n.data) ∧
    (∀ e : Hyperedge, objs.get ⟨i, h2⟩ = Entity.edge e →
      ss.get ⟨i, h1⟩ = indexTermOf e.sources e.targets e.relation)

/-- Concrete node created by `add_node("! a")` on a fresh graph. -/
def nBad : Node := { id := 0, data := "! a", node_number := 0 }

/-- Concrete self-loop hyperedge created by
`add_knowledge(["! a"], ["a"], "rel")` on a fresh graph. -/
def eBad : Hyperedge :=
  { id := 1, sources := [nBad], targets := [nBad], relation := "rel" }

/-- Concrete state after `add_knowledge(["! a"], ["a"], "rel")` on a
fresh graph. -/
def gBad : Hypergraph String :=
  { nodes := [nBad], edges := [eBad], n_nodes := 1, n_edges := 1,
    indexVecs := [" a", " a - rel -  a"],
    index_objs := [Entity.node nBad, Entity.edge eBad],
    nextId := 2 }

/-- Concrete node used by witnesses: the concept "A". -/
def nA : Node := { id := 0, data := "A", node_number := 0 }

/-- Concrete node used by witnesses: the concept "B". -/
def nB : Node := { id := 1, data := "B", node_number := 1 }

/-- Concrete hyperedge used by witnesses: `A -rel-> B`. -/
def eAB : Hyperedge :=
  { id := 2, sources := [nA], targets := [nB], relation := "rel" }

/-- Concrete two-node one-edge hypergraph used by witnesses, with the
index contents the concrete embedder would have produced. -/
def gAB : Hypergraph String :=
  { nodes := [nA, nB], edges := [eAB], n_nodes := 2, n_edges := 1,
    indexVecs := ["a", "b", "a - rel - b"],
    index_objs := [Entity.node nA, Entity.node nB, Entity.edge eAB],
    nextId := 3 }

/-- The concatenation of the bullet lines of the retrieved edges, in
order. -/
def edgesText (es : List Hyperedge) : String :=
  es.foldr (fun e s => edgeLineStr e ++ s) ""

/-- The full `seen_nodes` list accumulated over all retrieved edges. -/
def seenIdsOf (es : List Hyperedge) : List Nat :=
  es.foldr (fun e l => edgeSeenIds e ++ l) []

/-- The concatenation of the isolated-node bullet lines: one line per
retrieved node whose id was not seen in any retrieved edge. -/
def isolatedText (ns : List Node) (seen : List Nat) : String :=
  (ns.filter (fun n => !(seen.contains n.id))).foldr
    (fun n s => "* " ++ n.data ++ "\n" ++ s) ""

/-! ### Lemmas about the nearest-neighbour search -/

theorem nearest1Aux_eq_none {V : Type} (dist : V → V → ℚ) (q : V) :
    ∀ (vecs : List V) (off : Nat),
      nearest1Aux dist q vecs off = none ↔ vecs = [] := by
  intro vecs off
  cases vecs with
  | nil => simp [nearest1Aux]
  | cons v vs =>
    simp only [nearest1Aux]
    cases h : nearest1Aux dist q vs (off + 1) with
    | none => simp
    | some p =>
      obtain ⟨bj, bd⟩ := p
      by_cases hle : dist q v ≤ bd <;> simp [hle]

theorem nearest1Aux_spec {V : Type} (dist : V → V → ℚ) (q : V) :
    ∀ (vecs : List V) (off i : Nat) (d : ℚ),
      nearest1Aux dist q vecs off = some (i, d) →
      off ≤ i ∧ i - off < vecs.length ∧ d = dist q (vecs.getD (i - off) q) ∧
        ∀ j, j < vecs.length → d ≤ dist q (vecs.getD j q) := by
  intro vecs
  induction vecs with
  | nil => intro off i d h; simp [nearest1Aux] at h
  | cons v vs ih =>
    intro off i d h
    simp only [nearest1Aux] at h
    cases hrec : nearest1Aux dist q vs (off + 1) with
    | none =>
      rw [hrec] at h
      have hnil : vs = [] := (nearest1Aux_eq_none dist q vs (off + 1)).mp hrec
      simp at h
      obtain ⟨hi, hd⟩ := h
      subst hi hd
      subst hnil
      refine ⟨Nat.le_refl _, by simp, by simp, ?_⟩
      intro j hj
      have hj0 : j = 0 := by
        simp only [List.length_cons, List.length_nil] at hj
        omega
      subst hj0
      simp
    | some p =>
      obtain ⟨bj, bd⟩ := p
      rw [hrec] at h
      obtain ⟨hle, hrest, hdist, hmin⟩ := ih (off + 1) bj bd hrec
      by_cases hcmp : dist q v ≤ bd
      · simp [hcmp] at h
        obtain ⟨hi, hd⟩ := h
        subst hi hd
        refine ⟨Nat.le_refl _, by simp, by simp, ?_⟩
        intro j hj
        cases j with
        | zero => simp
        | succ j' =>
          have hj' : j' < vs.length := Nat.lt_of_succ_lt_succ hj
          have := hmin j' hj'
          simpa using le_trans hcmp this
      · simp [hcmp] at h
        obtain ⟨hi, hd⟩ := h
        subst hi hd
        have hoff : off ≤ bj := Nat.le_of_succ_le hle
        have hsub : bj - off = (bj - (off + 1)) + 1 := by omega
        refine ⟨hoff, by simp only [List.length_cons]; omega, ?_, ?_⟩
        · rw [hsub]; simpa using hdist
        · intro j hj
          cases j with
          | zero =>
            simpa using le_of_lt (lt_of_not_le hcmp)
          | succ j' =>
            have hj' : j' < vs.length := Nat.lt_of_succ_lt_succ hj
            simpa using hmin j' hj'

theorem nearest1_eq_none {V : Type} (dist : V → V → ℚ) (q : V)
    (vecs : List V) : nearest1 dist q vecs = none ↔ vecs = [] :=
  nearest1Aux_eq_none dist q vecs 0

theorem nearest1_spec {V : Type} (dist : V → V → ℚ) (q : V)
    (vecs : List V) (i : Nat) (d : ℚ)
    (h : nearest1 dist q vecs = some (i, d)) :
    i < vecs.length ∧ d = dist q (vecs.getD i q) ∧
      ∀ j, j < vecs.length → d ≤ dist q (vecs.getD j q) := by
  have := nearest1Aux_spec dist q vecs 0 i d h
  simpa using this

/-! ### C1: the two branches of `add_node` -/

/-- C1.  `add_node(text)` with a consistent index: when the index is
non-empty and the nearest slot's distance to the embedding of `text` is
at most `dupEps = 0.0001`, the call returns the entity already stored at
that slot and leaves the hypergraph unchanged; otherwise (empty index,
or nearest distance above the threshold) it creates a fresh `Node`
carrying the original `text` as display data, appends the embedding of
the cleaned text and the node to the index, bumps `n_nodes`, and returns
the new node. -/
theorem add_node_branches {V : Type} (dist : V → V → ℚ)
    (emb : String → V) (g : Hypergraph V) (text : String)
    (hlen : g.indexVecs.length = g.index_objs.length) :
    (g.indexVecs = [] → nearest1 dist (emb text) g.indexVecs = none) ∧
    (∀ i d, nearest1 dist (emb text) g.indexVecs = some (i, d) →
      d ≤ dupEps →
      ∃ hi : i < g.index_objs.length,
        Hypergraph.add_node dist emb g text = (g.index_objs.get ⟨i, hi⟩, g)) ∧
    ((nearest1 dist (emb text) g.indexVecs = none ∨
        ∃ i d, nearest1 dist (emb text) g.indexVecs = some (i, d) ∧ dupEps < d) →
      Hypergraph.add_node dist emb g text =
        (Entity.node { id := g.nextId, data := text, node_number := g.n_nodes },
          { g with
              nodes := g.nodes ++ [{ id := g.nextId, data := text, node_number := g.n_nodes }],
              indexVecs := g.indexVecs ++ [emb (clean_string text)],
              index_objs := g.index_objs ++
                [Entity.node { id := g.nextId, data := text, node_number := g.n_nodes }],
              n_nodes := g.n_nodes + 1,
              nextId := g.nextId + 1 })) := by
  refine ⟨?_, ?_, ?_⟩
  · intro hnil
    exact (nearest1_eq_none dist (emb text) g.indexVecs).mpr hnil
  · intro i d hnear hle
    have hi : i < g.index_objs.length := by
      have := (nearest1_spec dist (emb text) g.indexVecs i d hnear).1
      omega
    refine ⟨hi, ?_⟩
    unfold Hypergraph.add_node
    rw [hnear]
    have : ¬ dupEps < d := not_lt.mpr hle
    simp only [this, if_false]
    rw [List.getD_eq_getElem _ _ hi]
    rfl
  · intro hcase
    unfold Hypergraph.add_node
    rcases hcase with hnone | ⟨i, d, hnear, hgt⟩
    · rw [hnone]
    · rw [hnear]
      simp only [hgt, if_true]

/-- Witness for C1: on a graph holding the single concept "a",
`add_node("A")` (distance `0` to the stored cleaned text under the
concrete embedder) returns the stored entity at slot 0 and changes
nothing. -/
theorem add_node_branches_witness :
    ∃ hi : 0 < ((Hypergraph.add_node strDist strEmb
        (Hypergraph.init String) "a").2).index_objs.length,
      Hypergraph.add_node strDist strEmb
          (Hypergraph.add_node strDist strEmb (Hypergraph.init String) "a").2 "A" =
        (((Hypergraph.add_node strDist strEmb
            (Hypergraph.init String) "a").2).index_objs.get ⟨0, hi⟩,
          (Hypergraph.add_node strDist strEmb (Hypergraph.init String) "a").2) :=
  (add_node_branches strDist strEmb
      (Hypergraph.add_node strDist strEmb (Hypergraph.init String) "a").2 "A"
      (by decide)).2.1 0 0 (by decide) (by decide)

/-! ### C2: idempotence of node creation under near-duplicate phrasing -/

/-- The concrete distance is below the duplicate threshold exactly when
the cleaned texts agree. -/
theorem strDist_le_dupEps_iff (a b : String) :
    strDist a b ≤ dupEps ↔ clean_string a = clean_string b := by
  unfold strDist
  by_cases h : clean_string a = clean_string b
  · simp only [h, if_pos]
    constructor
    · intro _; trivial
    · intro _; decide
  · simp only [h, if_neg, iff_false]
    simp only [h, if_false]
    intro hle
    exact absurd hle (by decide)

/-- C2 (counterexample to the claim as stated): with the concrete
embedder — which is ideal in that embedding distance is below the
threshold exactly when the cleaned texts agree — calling
`add_node("! a")` twice creates two distinct nodes, because the second
call searches with the embedding of the raw text `"! a"` while the first
call indexed the embedding of the cleaned text `" a"`, and
`clean_string "! a" = " a"` does not re-normalise to itself
(`clean_string " a" = "a"`). -/
theorem add_node_identical_twice_cex :
    (Hypergraph.add_node strDist strEmb
        (Hypergraph.add_node strDist strEmb
          (Hypergraph.init String) "! a").2 "! a").1 ≠
      (Hypergraph.add_node strDist strEmb (Hypergraph.init String) "! a").1 := by
  decide

/-- C2 (amended).  Assume the embedder is such that two embeddings are
within the duplicate threshold exactly when the cleaned texts agree, the
index of `g` holds embeddings of strings none of which cleans to
`clean_string s`, `clean_string s = clean_string t` (near-duplicate
phrasings, e.g. `"Python"`/`"python"` or two identical strings), and the
cleaned text is a fixed point of cleaning.  Then `add_node(s)` followed
by `add_node(t)` returns the same entity both times, and the second call
changes nothing. -/
theorem add_node_idempotent {V : Type} (dist : V → V → ℚ)
    (emb : String → V)
    (hembIff : ∀ a b : String,
      dist (emb a) (emb b) ≤ dupEps ↔ clean_string a = clean_string b)
    (g : Hypergraph V) (ss : List String)
    (hvecs : g.indexVecs = ss.map emb)
    (hlen : g.indexVecs.length = g.index_objs.length)
    (s t : String) (hst : clean_string s = clean_string t)
    (hfix : clean_string (clean_string s) = clean_string s)
    (hmiss : ∀ x ∈ ss, clean_string x ≠ clean_string s) :
    (Hypergraph.add_node dist emb
        (Hypergraph.add_node dist emb g s).2 t).1 =
      (Hypergraph.add_node dist emb g s).1 ∧
    (Hypergraph.add_node dist emb
        (Hypergraph.add_node dist emb g s).2 t).2 =
      (Hypergraph.add_node dist emb g s).2 := by
  -- every stored vector is far from the embedding of any string cleaning
  -- to `clean_string s`
  have hfar : ∀ (u : String), clean_string u = clean_string s →
      ∀ j, j < g.indexVecs.length →
        dupEps < dist (emb u) (g.indexVecs.getD j (emb u)) := by
    intro u hu j hj
    have hjs : j < ss.length := by
      rw [hvecs] at hj; simpa using hj
    have hget : g.indexVecs.getD j (emb u) = emb (ss.getD j u) := by
      rw [hvecs, List.getD_eq_getElem _ _ (by simpa using hjs),
        List.getElem_map, List.getD_eq_getElem _ _ hjs]
    rw [hget]
    by_contra hle
    have hcl := (hembIff u (ss.getD j u)).mp (le_of_not_lt hle)
    have hmem : ss.getD j u ∈ ss := by
      rw [List.getD_eq_getElem _ _ hjs]
      exact List.getElem_mem _
    exact hmiss _ hmem (hcl.symm.trans hu)
  -- the first call takes the creation branch
  have hbr := add_node_branches dist emb g s hlen
  have hcreate : Hypergraph.add_node dist emb g s =
      (Entity.node { id := g.nextId, data := s, node_number := g.n_nodes },
        { g with
            nodes := g.nodes ++ [{ id := g.nextId, data := s, node_number := g.n_nodes }],
            indexVecs := g.indexVecs ++ [emb (clean_string s)],
            index_objs := g.index_objs ++
              [Entity.node { id := g.nextId, data := s, node_number := g.n_nodes }],
            n_nodes := g.n_nodes + 1,
            nextId := g.nextId + 1 }) := by
    apply hbr.2.2
    cases hnear : nearest1 dist (emb s) g.indexVecs with
    | none => exact Or.inl rfl
    | some p =>
      obtain ⟨i, d⟩ := p
      obtain ⟨hi, hd, _⟩ := nearest1_spec dist (emb s) g.indexVecs i d hnear
      refine Or.inr ⟨i, d, rfl, ?_⟩
      rw [hd]
      exact hfar s rfl i hi
  set n : Node := { id := g.nextId, data := s, node_number := g.n_nodes } with hn
  set g1 : Hypergraph V :=
    { g with
        nodes := g.nodes ++ [n],
        indexVecs := g.indexVecs ++ [emb (clean_string s)],
        index_objs := g.index_objs ++ [Entity.node n],
        n_nodes := g.n_nodes + 1,
        nextId := g.nextId + 1 } with hg1
  -- in the second call the new slot is within the threshold …
  have hlast : dist (emb t) (emb (clean_string s)) ≤ dupEps := by
    rw [hembIff]
    rw [hfix, ← hst]
  -- … and the second search must land on it
  have hlen1 : g1.indexVecs.length = g.indexVecs.length + 1 := by
    simp [hg1]
  have hne : g1.indexVecs ≠ [] := by
    simp [hg1]
  obtain ⟨p2, hnear2⟩ :
      ∃ p2, nearest1 dist (emb t) g1.indexVecs = some p2 := by
    cases hc : nearest1 dist (emb t) g1.indexVecs with
    | none => exact absurd ((nearest1_eq_none _ _ _).mp hc) hne
    | some p => exact ⟨p, rfl⟩
  obtain ⟨i2, d2⟩ := p2
  obtain ⟨hi2, hd2, hmin2⟩ := nearest1_spec dist (emb t) g1.indexVecs i2 d2 hnear2
  have hlastIdx : g.indexVecs.length < g1.indexVecs.length := by omega
  have hgetLast : g1.indexVecs.getD g.indexVecs.length (emb t) =
      emb (clean_string s) := by
    show (g.indexVecs ++ [emb (clean_string s)]).getD g.indexVecs.length (emb t) = _
    rw [List.getD_eq_getElem _ _ (by simp)]
    simp
  have hd2le : d2 ≤ dupEps := by
    have := hmin2 g.indexVecs.length hlastIdx
    rw [hgetLast] at this
    exact le_trans this hlast
  have hi2eq : i2 = g.indexVecs.length := by
    by_contra hne2
    have hi2lt : i2 < g.indexVecs.length := by omega
    have hgetOld : g1.indexVecs.getD i2 (emb t) =
        g.indexVecs.getD i2 (emb t) := by
      show (g.indexVecs ++ [emb (clean_string s)]).getD i2 (emb t) = _
      rw [List.getD_eq_getElem _ _ (by simp; omega),
        List.getD_eq_getElem _ _ hi2lt]
      exact List.getElem_append_left hi2lt
    have hfar2 := hfar t hst.symm i2 hi2lt
    rw [← hgetOld, ← hd2] at hfar2
    exact absurd hd2le (not_le.mpr hfar2)
  -- hence the second call returns the node created by the first
  have hbr1 := add_node_branches dist emb g1 t
    (by simp [hg1, hlen])
  obtain ⟨hiobj, heq2⟩ := hbr1.2.1 i2 d2 hnear2 hd2le
  have hobjLast : g1.index_objs.get ⟨i2, hiobj⟩ = Entity.node n := by
    have hidx : i2 = g.index_objs.length := by
      rw [hi2eq, hlen]
    subst hidx
    show (g.index_objs ++ [Entity.node n]).get _ = _
    rw [List.get_eq_getElem]
    simp
  rw [hcreate]
  rw [heq2, hobjLast]
  exact ⟨rfl, rfl⟩

/-- Witness for C2 (amended): from the empty hypergraph, with the
concrete embedder, `add_node("Python")` then `add_node("python")`
returns the same entity both times and the second call changes
nothing. -/
theorem add_node_idempotent_witness :
    (Hypergraph.add_node strDist strEmb
        (Hypergraph.add_node strDist strEmb
          (Hypergraph.init String) "Python").2 "python").1 =
      (Hypergraph.add_node strDist strEmb (Hypergraph.init String) "Python").1 ∧
    (Hypergraph.add_node strDist strEmb
        (Hypergraph.add_node strDist strEmb
          (Hypergraph.init String) "Python").2 "python").2 =
      (Hypergraph.add_node strDist strEmb (Hypergraph.init String) "Python").2 :=
  add_node_idempotent strDist strEmb strDist_le_dupEps_iff
    (Hypergraph.init String) [] rfl rfl "Python" "python"
    (by decide) (by decide) (by intro x hx; exact absurd hx (List.not_mem_nil x))

/-! ### C9: validation behaviour of `retrieve` -/

/-- C9.  `retrieve` raises the validation error exactly when the query
is blank or `top_k` is not a positive integer; for a non-blank query and
positive integer `top_k` it never raises a validation error (it may
still propagate the `IndexError` of `query` on an empty index, which is
not a validation error). -/
theorem retrieve_validation_iff {V : Type} (dist : V → V → ℚ)
    (emb : String → V) (g : Hypergraph V) (q : String) (k : PyTopK) :
    RAGSystem.retrieve dist emb g q k = RetrieveResult.invalidArg ↔
      (isBlank q = true ∨ notPosTopK k) := by
  unfold RAGSystem.retrieve
  by_cases hb : isBlank q = true
  · simp [hb]
  · simp only [hb, Bool.false_eq_true, if_false]
    cases k with
    | notAnInt => simp [hb, notPosTopK]
    | int n =>
      by_cases hn : n ≤ 0
      · simp [hb, hn, notPosTopK]
      · simp only [hn, if_false]
        cases hq : Hypergraph.query dist emb g q n.toNat with
        | none => simp [hb, hn, notPosTopK]
        | some p =>
          obtain ⟨ns, es⟩ := p
          simp [hb, hn, notPosTopK]

/-! ### C10: atomicity of `add_knowledge` on validation failure -/

/-- C10.  Both the silent empty-list check and the source–target
disjointness check of `add_knowledge` run before any node or edge is
created: whenever the call returns as a no-op or raises the validation
error, the hypergraph the caller observes is exactly the state before
the call. -/
theorem add_knowledge_atomic {V : Type} (dist : V → V → ℚ)
    (emb : String → V) (g : Hypergraph V) (cs rs : List String)
    (rel : String) (g' : Hypergraph V)
    (h : RAGSystem.add_knowledge dist emb g cs rs rel =
          KnowledgeOutcome.noop g' ∨
        RAGSystem.add_knowledge dist emb g cs rs rel =
          KnowledgeOutcome.invalid g') :
    g' = g := by
  unfold RAGSystem.add_knowledge at h
  by_cases h1 : isBlank rel = true
  · simp only [h1, if_true] at h
    rcases h with h | h
    · exact absurd h (by simp)
    · injection h with h2; exact h2.symm
  · simp only [h1, Bool.false_eq_true, if_false] at h
    by_cases h2 : (cs.isEmpty || rs.isEmpty) = true
    · simp only [h2, if_true] at h
      rcases h with h | h
      · injection h with h3; exact h3.symm
      · exact absurd h (by simp)
    · simp only [h2, Bool.false_eq_true, if_false] at h
      by_cases h3 : cs.any
          (fun c => (rs.map clean_string).contains (clean_string c)) = true
      · simp only [h3, if_true] at h
        rcases h with h | h
        · exact absurd h (by simp)
        · injection h with h4; exact h4.symm
      · simp only [h3, Bool.false_eq_true, if_false] at h
        cases hc1 : collectNodes dist emb cs g [] with
        | none => rcases h with h | h <;> simp [hc1] at h
        | some p1 =>
          obtain ⟨src, g1⟩ := p1
          cases hc2 : collectNodes dist emb rs g1 [] with
          | none => rcases h with h | h <;> simp [hc1, hc2] at h
          | some p2 =>
            obtain ⟨tgt, g2⟩ := p2
            rcases h with h | h <;> simp [hc1, hc2] at h

/-- Witness for C10: `add_knowledge(["Python"], ["python"], "rel")` on
the one-node hypergraph raises the validation error with the state
unchanged. -/
theorem add_knowledge_atomic_witness :
    (Hypergraph.add_node strDist strEmb (Hypergraph.init String) "a").2 =
      (Hypergraph.add_node strDist strEmb (Hypergraph.init String) "a").2 ∧
    RAGSystem.add_knowledge strDist strEmb
        (Hypergraph.add_node strDist strEmb (Hypergraph.init String) "a").2
        ["Python"] ["python"] "rel" =
      KnowledgeOutcome.invalid
        (Hypergraph.add_node strDist strEmb (Hypergraph.init String) "a").2 :=
  ⟨add_knowledge_atomic strDist strEmb
      (Hypergraph.add_node strDist strEmb (Hypergraph.init String) "a").2
      ["Python"] ["python"] "rel"
      (Hypergraph.add_node strDist strEmb (Hypergraph.init String) "a").2
      (Or.inr (by decide)) ▸ rfl,
    by decide⟩

/-! ### C7: the validation error of `add_knowledge` -/

/-- C7.  For non-empty concept lists and a non-blank relation,
`add_knowledge` raises the validation error exactly when some source
concept cleans to the same string as some target concept (an
`AttributeError` crash through a hyperedge-typed duplicate slot is a
different exception and a different outcome). -/
theorem add_knowledge_validation_iff {V : Type} (dist : V → V → ℚ)
    (emb : String → V) (g : Hypergraph V) (cs rs : List String)
    (rel : String) (hrel : isBlank rel = false) (hcs : cs ≠ [])
    (hrs : rs ≠ []) :
    (∃ g', RAGSystem.add_knowledge dist emb g cs rs rel =
        KnowledgeOutcome.invalid g') ↔
      ∃ c ∈ cs, clean_string c ∈ rs.map clean_string := by
  unfold RAGSystem.add_knowledge
  have h1 : (isBlank rel = true) = False := by simp [hrel]
  have hcse : cs.isEmpty = false := by simpa using hcs
  have hrse : rs.isEmpty = false := by simpa using hrs
  simp only [h1, hrel, Bool.false_eq_true, if_false, hcse, hrse,
    Bool.or_self, if_false]
  by_cases h3 : cs.any
      (fun c => (rs.map clean_string).contains (clean_string c)) = true
  · simp only [h3, if_true]
    constructor
    · intro _
      have := List.any_eq_true.mp h3
      obtain ⟨c, hc, hcont⟩ := this
      exact ⟨c, hc, by simpa using hcont⟩
    · intro _
      exact ⟨g, rfl⟩
  · simp only [h3, Bool.false_eq_true, if_false]
    constructor
    · intro hex
      obtain ⟨g', hg'⟩ := hex
      exfalso
      cases hc1 : collectNodes dist emb cs g [] with
      | none => simp [hc1] at hg'
      | some p1 =>
        obtain ⟨src, g1⟩ := p1
        cases hc2 : collectNodes dist emb rs g1 [] with
        | none => simp [hc1, hc2] at hg'
        | some p2 =>
          obtain ⟨tgt, g2⟩ := p2
          simp [hc1, hc2] at hg'
    · intro hov
      exfalso
      obtain ⟨c, hc, hmem⟩ := hov
      have : cs.any
          (fun c => (rs.map clean_string).contains (clean_string c)) = true :=
        List.any_eq_true.mpr ⟨c, hc, by simpa using hmem⟩
      exact h3 this

/-- Witness for C7: `add_knowledge(["Python"], ["python"], "rel")` on a
fresh hypergraph raises the validation error, and the overlap it reports
is real. -/
theorem add_knowledge_validation_witness :
    (∃ g', RAGSystem.add_knowledge strDist strEmb (Hypergraph.init String)
        ["Python"] ["python"] "rel" = KnowledgeOutcome.invalid g') ∧
    (∃ c ∈ ["Python"], clean_string c ∈ ["python"].map clean_string) :=
  ⟨(add_knowledge_validation_iff strDist strEmb (Hypergraph.init String)
      ["Python"] ["python"] "rel" (by decide) (by decide) (by decide)).mpr
      ⟨"Python", by decide, by decide⟩,
    ⟨"Python", by decide, by decide⟩⟩

/-! ### C3: oversized `top_k` -/

theorem insertLe_perm {α : Type} (le : α → α → Bool) (a : α) :
    ∀ l : List α, (insertLe le a l).Perm (a :: l) := by
  intro l
  induction l with
  | nil => simp [insertLe]
  | cons b bs ih =>
    simp only [insertLe]
    by_cases h : le a b
    · simp [h]
    · simp only [h, Bool.false_eq_true, if_false]
      exact List.Perm.trans (List.Perm.cons b ih) (List.Perm.swap a b bs)

theorem sortLe_perm {α : Type} (le : α → α → Bool) (xs : List α) :
    (sortLe le xs).Perm xs := by
  induction xs with
  | nil => simp [sortLe]
  | cons x xs ih =>
    simp only [sortLe, List.foldr_cons]
    exact List.Perm.trans (insertLe_perm le x _) (List.Perm.cons x ih)

theorem setAdd_mem {α : Type} [DecidableEq α] (xs : List α) (a b : α) :
    b ∈ setAdd xs a ↔ b ∈ xs ∨ b = a := by
  unfold setAdd
  by_cases h : a ∈ xs
  · simp only [h, if_true]
    constructor
    · exact Or.inl
    · rintro (hb | hb)
      · exact hb
      · exact hb ▸ h
  · simp [h]

theorem setAdd_nodup {α : Type} [DecidableEq α] (xs : List α) (a : α)
    (h : xs.Nodup) : (setAdd xs a).Nodup := by
  unfold setAdd
  by_cases hm : a ∈ xs
  · simpa [hm]
  · simp [hm, List.nodup_append, h]

theorem mapM_option_eq_map {α β : Type} (f : α → Option β) (h : α → β) :
    ∀ l : List α, (∀ x ∈ l, f x = some (h x)) →
      l.mapM f = some (l.map h) := by
  intro l
  induction l with
  | nil => intro _; rfl
  | cons x xs ih =>
    intro hall
    rw [List.mapM_cons]
    have hx : f x = some (h x) := hall x (by simp)
    have hxs : xs.mapM f = some (xs.map h) :=
      ih (fun y hy => hall y (List.mem_cons_of_mem x hy))
    rw [hx, hxs]
    rfl

/-- The partition loop of `query`, characterised: starting from nodup
accumulators it yields nodup results whose members are exactly the
accumulated ones plus the matching entities of the input. -/
theorem query_fold_spec :
    ∀ (rs : List Entity) (accN : List Node) (accE : List Hyperedge),
      accN.Nodup → accE.Nodup →
      (rs.foldl
        (fun (acc : List Node × List Hyperedge) r =>
          match r with
          | Entity.node n => (setAdd acc.1 n, acc.2)
          | Entity.edge e => (acc.1, setAdd acc.2 e))
        (accN, accE)).1.Nodup ∧
      (rs.foldl
        (fun (acc : List Node × List Hyperedge) r =>
          match r with
          | Entity.node n => (setAdd acc.1 n, acc.2)
          | Entity.edge e => (acc.1, setAdd acc.2 e))
        (accN, accE)).2.Nodup ∧
      (∀ n : Node,
        n ∈ (rs.foldl
          (fun (acc : List Node × List Hyperedge) r =>
            match r with
            | Entity.node n => (setAdd acc.1 n, acc.2)
            | Entity.edge e => (acc.1, setAdd acc.2 e))
          (accN, accE)).1 ↔ n ∈ accN ∨ Entity.node n ∈ rs) ∧
      (∀ e : Hyperedge,
        e ∈ (rs.foldl
          (fun (acc : List Node × List Hyperedge) r =>
            match r with
            | Entity.node n => (setAdd acc.1 n, acc.2)
            | Entity.edge e => (acc.1, setAdd acc.2 e))
          (accN, accE)).2 ↔ e ∈ accE ∨ Entity.edge e ∈ rs) := by
  intro rs
  induction rs with
  | nil =>
    intro accN accE hN hE
    refine ⟨hN, hE, ?_, ?_⟩ <;> intro x <;> simp
  | cons r rs ih =>
    intro accN accE hN hE
    cases r with
    | node m =>
      have := ih (setAdd accN m) accE (setAdd_nodup accN m hN) hE
      obtain ⟨hn1, hn2, hn3, hn4⟩ := this
      refine ⟨hn1, hn2, ?_, ?_⟩
      · intro n
        rw [List.foldl_cons]
        rw [hn3 n, setAdd_mem]
        constructor
        · rintro ((h | h) | h)
          · exact Or.inl h
          · exact Or.inr (by simp [h])
          · exact Or.inr (by simp [h])
        · rintro (h | h)
          · exact Or.inl (Or.inl h)
          · rcases List.mem_cons.mp h with h' | h'
            · exact Or.inl (Or.inr (by injection h' with h''))
            · exact Or.inr h'
      · intro e
        rw [List.foldl_cons]
        rw [hn4 e]
        constructor
        · rintro (h | h)
          · exact Or.inl h
          · exact Or.inr (List.mem_cons_of_mem _ h)
        · rintro (h | h)
          · exact Or.inl h
          · rcases List.mem_cons.mp h with h' | h'
            · exact absurd h' (by simp)
            · exact Or.inr h'
    | edge f =>
      have := ih accN (setAdd accE f) hN (setAdd_nodup accE f hE)
      obtain ⟨hn1, hn2, hn3, hn4⟩ := this
      refine ⟨hn1, hn2, ?_, ?_⟩
      · intro n
        rw [List.foldl_cons]
        rw [hn3 n]
        constructor
        · rintro (h | h)
          · exact Or.inl h
          · exact Or.inr (List.mem_cons_of_mem _ h)
        · rintro (h | h)
          · exact Or.inl h
          · rcases List.mem_cons.mp h with h' | h'
            · exact absurd h' (by simp)
            · exact Or.inr h'
      · intro e
        rw [List.foldl_cons]
        rw [hn4 e, setAdd_mem]
        constructor
        · rintro ((h | h) | h)
          · exact Or.inl h
          · exact Or.inr (by simp [h])
          · exact Or.inr (by simp [h])
        · rintro (h | h)
          · exact Or.inl (Or.inl h)
          · rcases List.mem_cons.mp h with h' | h'
            · exact Or.inl (Or.inr (by injection h' with h''))
            · exact Or.inr h'

/-- C3 (counterexample to the claim as stated): on an *empty* index a
`top_k` exceeding the slot count does not return "all available items" —
every faiss label is the padding `-1`, Python's negative indexing of the
empty `_index_objs` raises `IndexError`, and both `query` and `retrieve`
fail. -/
theorem query_empty_index_cex :
    Hypergraph.query strDist strEmb (Hypergraph.init String) "x" 5 = none ∧
    RAGSystem.retrieve strDist strEmb (Hypergraph.init String) "x"
      (PyTopK.int 5) = RetrieveResult.crashed :=
  ⟨by decide, by decide⟩

/-- C3 (amended).  On a *non-empty* consistent index, `query` with
`top_k` at least the slot count does not fail: it returns node and edge
sets without duplicates whose members are exactly the stored entities
(the `-1` padding labels only re-resolve to the last stored object), so
at most `|slots|` distinct items come back in total. -/
theorem query_topk_overflow {V : Type} (dist : V → V → ℚ)
    (emb : String → V) (g : Hypergraph V) (crit : String) (k : Nat)
    (hne : g.index_objs ≠ [])
    (hlen : g.indexVecs.length = g.index_objs.length)
    (hk : g.indexVecs.length ≤ k) :
    ∃ ns es, Hypergraph.query dist emb g crit k = some (ns, es) ∧
      ns.Nodup ∧ es.Nodup ∧
      (∀ n : Node, n ∈ ns ↔ Entity.node n ∈ g.index_objs) ∧
      (∀ e : Hyperedge, e ∈ es ↔ Entity.edge e ∈ g.index_objs) ∧
      ns.length + es.length ≤ g.index_objs.length := by
  have hpos : 0 < g.index_objs.length := List.length_pos.mpr hne
  have hperm : (sortLe (slotLe dist (emb crit) g.indexVecs)
      (List.range g.indexVecs.length)).Perm
      (List.range g.indexVecs.length) := sortLe_perm _ _
  have hslen : (sortLe (slotLe dist (emb crit) g.indexVecs)
      (List.range g.indexVecs.length)).length = g.indexVecs.length := by
    rw [hperm.length_eq, List.length_range]
  have htake : (sortLe (slotLe dist (emb crit) g.indexVecs)
      (List.range g.indexVecs.length)).take k =
      sortLe (slotLe dist (emb crit) g.indexVecs)
        (List.range g.indexVecs.length) :=
    List.take_of_length_le (by omega)
  have hsearch : searchTopK dist (emb crit) g.indexVecs k =
      (sortLe (slotLe dist (emb crit) g.indexVecs)
        (List.range g.indexVecs.length)).map Int.ofNat
        ++ List.replicate (k - g.indexVecs.length) (-1) := by
    unfold searchTopK
    rw [htake]
  -- every label resolves, to `labelEntity`
  have hmem_slot : ∀ s, s ∈ sortLe (slotLe dist (emb crit) g.indexVecs)
      (List.range g.indexVecs.length) → s < g.index_objs.length := by
    intro s hs
    have := hperm.mem_iff.mp hs
    rw [List.mem_range] at this
    omega
  have hmap : ∀ x ∈ searchTopK dist (emb crit) g.indexVecs k,
      pyIndex g.index_objs x = some (labelEntity g.index_objs x) := by
    intro x hx
    rw [hsearch] at hx
    rcases List.mem_append.mp hx with hx | hx
    · obtain ⟨s, hs, hxs⟩ := List.mem_map.mp hx
      subst hxs
      have hslt : s < g.index_objs.length := hmem_slot s hs
      unfold pyIndex labelEntity
      have h0 : (0 : Int) ≤ Int.ofNat s := Int.ofNat_nonneg s
      simp only [h0, if_true]
      have htn : (Int.ofNat s).toNat = s := rfl
      rw [htn, List.getD_eq_getElem _ _ hslt, List.get?_eq_get hslt]
      rfl
    · have hx1 : x = -1 := (List.eq_of_mem_replicate hx)
      subst hx1
      unfold pyIndex labelEntity
      have h0 : ¬ ((0 : Int) ≤ -1) := by decide
      simp only [h0, if_false]
      have htn : ((-(-1 : Int)).toNat) = 1 := rfl
      rw [htn]
      have h1 : 1 ≤ g.index_objs.length := hpos
      simp only [h1, if_true]
      have hlt : g.index_objs.length - 1 < g.index_objs.length := by omega
      rw [List.getD_eq_getElem _ _ hlt, List.get?_eq_get hlt]
      rfl
  have hmapM := mapM_option_eq_map (pyIndex g.index_objs)
    (labelEntity g.index_objs) _ hmap
  -- membership of the resolved result list
  have hR : ∀ ent : Entity,
      ent ∈ (searchTopK dist (emb crit) g.indexVecs k).map
        (labelEntity g.index_objs) ↔ ent ∈ g.index_objs := by
    intro ent
    constructor
    · intro hent
      obtain ⟨x, hx, hxe⟩ := List.mem_map.mp hent
      rw [hsearch] at hx
      rcases List.mem_append.mp hx with hx | hx
      · obtain ⟨s, hs, hxs⟩ := List.mem_map.mp hx
        subst hxs
        have hslt : s < g.index_objs.length := hmem_slot s hs
        rw [← hxe]
        unfold labelEntity
        have h0 : (0 : Int) ≤ Int.ofNat s := Int.ofNat_nonneg s
        simp only [h0, if_true]
        have htn : (Int.ofNat s).toNat = s := rfl
        rw [htn, List.getD_eq_getElem _ _ hslt]
        exact List.getElem_mem hslt
      · have hx1 : x = -1 := (List.eq_of_mem_replicate hx)
        subst hx1
        rw [← hxe]
        unfold labelEntity
        have h0 : ¬ ((0 : Int) ≤ -1) := by decide
        simp only [h0, if_false]
        have hlt : g.index_objs.length - 1 < g.index_objs.length := by omega
        have htn : ((-(-1 : Int)).toNat) = 1 := rfl
        rw [htn, List.getD_eq_getElem _ _ hlt]
        exact List.getElem_mem hlt
    · intro hent
      obtain ⟨j, hj, hje⟩ := List.getElem_of_mem hent
      have hjn : j ∈ List.range g.indexVecs.length := by
        rw [List.mem_range]; omega
      have hjs : j ∈ sortLe (slotLe dist (emb crit) g.indexVecs)
          (List.range g.indexVecs.length) := hperm.mem_iff.mpr hjn
      refine List.mem_map.mpr ⟨Int.ofNat j, ?_, ?_⟩
      · rw [hsearch]
        exact List.mem_append_left _ (List.mem_map.mpr ⟨j, hjs, rfl⟩)
      · unfold labelEntity
        have h0 : (0 : Int) ≤ Int.ofNat j := Int.ofNat_nonneg j
        simp only [h0, if_true]
        have htn : (Int.ofNat j).toNat = j := rfl
        rw [htn, List.getD_eq_getElem _ _ hj]
        exact hje
  obtain ⟨hn1, hn2, hn3, hn4⟩ := query_fold_spec
    ((searchTopK dist (emb crit) g.indexVecs k).map (labelEntity g.index_objs))
    [] [] List.nodup_nil List.nodup_nil
  refine ⟨_, _, ?_, hn1, hn2, ?_, ?_, ?_⟩
  · unfold Hypergraph.query
    rw [hmapM]
  · intro n
    rw [hn3 n]
    simp only [List.not_mem_nil, false_or]
    exact hR (Entity.node n)
  · intro e
    rw [hn4 e]
    simp only [List.not_mem_nil, false_or]
    exact hR (Entity.edge e)
  · -- cardinality: the two nodup result lists inject into the object list
    set ns := ((searchTopK dist (emb crit) g.indexVecs k).map
      (labelEntity g.index_objs)).foldl
      (fun (acc : List Node × List Hyperedge) r =>
        match r with
        | Entity.node n => (setAdd acc.1 n, acc.2)
        | Entity.edge e => (acc.1, setAdd acc.2 e)) ([], []) with hns
    have hsub : (ns.1.map Entity.node ++ ns.2.map Entity.edge) ⊆
        g.index_objs := by
      intro x hx
      rcases List.mem_append.mp hx with hx | hx
      · obtain ⟨a, ha, hax⟩ := List.mem_map.mp hx
        subst hax
        exact (hR (Entity.node a)).mp
          (by have := (hn3 a).mp ha; simpa using this)
      · obtain ⟨a, ha, hax⟩ := List.mem_map.mp hx
        subst hax
        exact (hR (Entity.edge a)).mp
          (by have := (hn4 a).mp ha; simpa using this)
    have hnd : (ns.1.map Entity.node ++ ns.2.map Entity.edge).Nodup := by
      rw [List.nodup_append]
      refine ⟨List.Nodup.map (fun a b h => by injection h) hn1,
        List.Nodup.map (fun a b h => by injection h) hn2, ?_⟩
      intro x hx hy
      obtain ⟨a, _, hax⟩ := List.mem_map.mp hx
      obtain ⟨b, _, hbx⟩ := List.mem_map.mp hy
      rw [← hax] at hbx
      exact absurd hbx (by simp)
    have := List.Subperm.length_le (List.subperm_of_subset hnd hsub)
    simpa using this

/-- Witness for C3 (amended): a one-slot graph queried with `top_k = 7`
succeeds and returns at most one distinct item. -/
theorem query_topk_overflow_witness :
    ∃ ns es, Hypergraph.query strDist strEmb
        (Hypergraph.add_node strDist strEmb
          (Hypergraph.init String) "a").2 "x" 7 = some (ns, es) ∧
      ns.Nodup ∧ es.Nodup ∧
      (∀ n : Node, n ∈ ns ↔ Entity.node n ∈
        (Hypergraph.add_node strDist strEmb
          (Hypergraph.init String) "a").2.index_objs) ∧
      (∀ e : Hyperedge, e ∈ es ↔ Entity.edge e ∈
        (Hypergraph.add_node strDist strEmb
          (Hypergraph.init String) "a").2.index_objs) ∧
      ns.length + es.length ≤
        (Hypergraph.add_node strDist strEmb
          (Hypergraph.init String) "a").2.index_objs.length :=
  query_topk_overflow strDist strEmb
    (Hypergraph.add_node strDist strEmb (Hypergraph.init String) "a").2
    "x" 7 (by decide) (by decide) (by decide)

/-! ### C6: grouping and deduplication of the retrieved text -/

theorem retrieve_edges_fold (es : List Hyperedge) :
    ∀ acc : String × List Nat,
      es.foldl (fun (acc : String × List Nat) e =>
        (acc.1 ++ edgeLineStr e, acc.2 ++ edgeSeenIds e)) acc =
      (acc.1 ++ edgesText es, acc.2 ++ seenIdsOf es) := by
  induction es with
  | nil =>
    intro acc
    simp [edgesText, seenIdsOf, String.append_empty]
  | cons e es ih =>
    intro acc
    rw [List.foldl_cons, ih]
    have h1 : edgesText (e :: es) = edgeLineStr e ++ edgesText es := rfl
    have h2 : seenIdsOf (e :: es) = edgeSeenIds e ++ seenIdsOf es := rfl
    rw [h1, h2]
    simp [String.append_assoc, List.append_assoc]

theorem retrieve_nodes_fold (seen : List Nat) :
    ∀ (ns : List Node) (acc : String),
      ns.foldl (fun acc n =>
        if seen.contains n.id then acc
        else acc ++ "* " ++ n.data ++ "\n") acc =
      acc ++ isolatedText ns seen := by
  intro ns
  induction ns with
  | nil =>
    intro acc
    simp [isolatedText, String.append_empty]
  | cons n ns ih =>
    intro acc
    rw [List.foldl_cons]
    by_cases h : seen.contains n.id = true
    · rw [if_pos h, ih]
      have hm : n.id ∈ seen := List.elem_iff.mp h
      have : isolatedText (n :: ns) seen = isolatedText ns seen := by
        unfold isolatedText
        rw [List.filter_cons]
        simp [hm]
      rw [this]
    · rw [if_neg h, ih]
      have hm : n.id ∉ seen := fun hc => h (List.elem_iff.mpr hc)
      have : isolatedText (n :: ns) seen =
          "* " ++ n.data ++ "\n" ++ isolatedText ns seen := by
        unfold isolatedText
        rw [List.filter_cons]
        simp [hm]
      rw [this]
      simp [String.append_assoc]

/-- C6.  When `retrieve` succeeds, the returned text is the
concatenation of all edge bullets (in edge-set order) followed by the
isolated-node bullets of exactly those retrieved nodes whose id appears
in no retrieved edge; a node seen inside any emitted edge contributes no
standalone bullet. -/
theorem retrieve_grouping {V : Type} (dist : V → V → ℚ)
    (emb : String → V) (g : Hypergraph V) (q : String) (k : Int)
    (ns : List Node) (es : List Hyperedge) (text : String)
    (hq : Hypergraph.query dist emb g q k.toNat = some (ns, es))
    (hok : RAGSystem.retrieve dist emb g q (PyTopK.int k) =
      RetrieveResult.ok text) :
    text = edgesText es ++ isolatedText ns (seenIdsOf es) ∧
      ∀ n ∈ ns, n.id ∈ seenIdsOf es →
        n ∉ ns.filter (fun n => !((seenIdsOf es).contains n.id)) := by
  constructor
  · unfold RAGSystem.retrieve at hok
    split at hok
    · exact absurd hok (by simp)
    · split at hok
      · exact absurd hok (by simp)
      · rename_i k' hk'
        injection hk' with hkk
        subst hkk
        split at hok
        · exact absurd hok (by simp)
        · split at hok
          · exact absurd hok (by simp)
          · rename_i ns2 es2 hq2
            rw [hq] at hq2
            injection hq2 with hq3
            injection hq3 with hns hes
            subst hns hes
            injection hok with h
            rw [← h, retrieve_edges_fold es ("", [])]
            show List.foldl
                (fun acc n =>
                  if (([] : List Nat) ++ seenIdsOf es).contains n.id = true then acc
                  else acc ++ "* " ++ n.data ++ "\n")
                ("" ++ edgesText es) ns =
              edgesText es ++ isolatedText ns (seenIdsOf es)
            rw [retrieve_nodes_fold ([] ++ seenIdsOf es) ns ("" ++ edgesText es)]
            rfl
  · intro n _ hseen
    intro hmem
    have hfl := List.of_mem_filter hmem
    simp only [Bool.not_eq_true'] at hfl
    have : n.id ∉ seenIdsOf es := fun hc => by
      have ht : (seenIdsOf es).contains n.id = true := List.elem_iff.mpr hc
      rw [ht] at hfl
      exact Bool.true_eq_false.mp hfl
    exact this hseen

/-- Witness for C6: on a two-node, one-edge graph whose query returns
the edge and both nodes, the text is the edge bullet alone — both nodes
were seen in the edge, so no isolated bullet follows. -/
theorem retrieve_grouping_witness :
    "* A - rel - B\n" =
      edgesText [eAB] ++ isolatedText [nA, nB] (seenIdsOf [eAB]) ∧
      ∀ n ∈ [nA, nB], n.id ∈ seenIdsOf [eAB] →
        n ∉ List.filter (fun n => !((seenIdsOf [eAB]).contains n.id)) [nA, nB] :=
  retrieve_grouping strDist strEmb gAB "A" 3 [nA, nB] [eAB]
    "* A - rel - B\n" (by decide) (by decide)

/-! ### C4: the incidence matrix written by `save` -/

theorem bool_eq_false {b : Bool} (h : ¬ b = true) : b = false := by
  cases b
  · rfl
  · exact absurd rfl h

theorem setEntry_eq (H : Nat → Nat → Int) (r c : Nat) (v : Int)
    (r' c' : Nat) :
    setEntry H r c v r' c' = if r' = r ∧ c' = c then v else H r' c' := rfl

theorem hasNum_cons (n : Node) (ns : List Node) (r : Nat) :
    hasNum (n :: ns) r = ((n.node_number == r) || hasNum ns r) := rfl

theorem writeCol_spec (nRows nCols : Nat) (v : Int) :
    ∀ (ns : List Node) (c : Nat) (H : Nat → Nat → Int),
      (∀ n ∈ ns, n.node_number < nRows) → c < nCols →
      ∃ H', writeCol nRows nCols v ns c H = some H' ∧
        ∀ r' c', H' r' c' =
          if c' = c ∧ hasNum ns r' = true then v else H r' c' := by
  intro ns
  induction ns with
  | nil =>
    intro c H _ _
    refine ⟨H, rfl, ?_⟩
    intro r' c'
    simp [hasNum]
  | cons n ns ih =>
    intro c H hrows hc
    have hn : n.node_number < nRows := hrows n (by simp)
    obtain ⟨H', hw, hval⟩ := ih c (setEntry H n.node_number c v)
      (fun m hm => hrows m (List.mem_cons_of_mem n hm)) hc
    refine ⟨H', ?_, ?_⟩
    · show (n :: ns).foldlM
        (fun H m => if m.node_number < nRows ∧ c < nCols then
          some (setEntry H m.node_number c v) else none) H = some H'
      rw [List.foldlM_cons]
      rw [if_pos (And.intro hn hc)]
      exact hw
    · intro r' c'
      rw [hval r' c']
      by_cases h1 : c' = c
      · by_cases h2 : hasNum ns r' = true
        · rw [if_pos (And.intro h1 h2)]
          have hall : hasNum (n :: ns) r' = true := by
            rw [hasNum_cons, h2, Bool.or_true]
          rw [if_pos (And.intro h1 hall)]
        · rw [if_neg (fun hcon => h2 hcon.2), setEntry_eq]
          by_cases h3 : (n.node_number == r') = true
          · have hnr : n.node_number = r' := by simpa using h3
            rw [if_pos (And.intro hnr.symm h1)]
            have hall : hasNum (n :: ns) r' = true := by
              rw [hasNum_cons, h3, Bool.true_or]
            rw [if_pos (And.intro h1 hall)]
          · rw [if_neg (fun hcon => h3 (by simp [hcon.1]))]
            have hall : hasNum (n :: ns) r' = false := by
              rw [hasNum_cons, bool_eq_false h3, bool_eq_false h2]
              rfl
            have hne : ¬ (c' = c ∧ hasNum (n :: ns) r' = true) := by
              intro hcon
              rw [hall] at hcon
              exact Bool.false_ne_true hcon.2
            rw [if_neg hne]
      · rw [if_neg (fun hcon => h1 hcon.1), if_neg (fun hcon => h1 hcon.1),
          setEntry_eq, if_neg (fun hcon => h1 hcon.2)]

theorem incidence_fold_spec {V : Type} (g : Hypergraph V) :
    ∀ (es : List Hyperedge) (c0 : Nat) (H : Nat → Nat → Int),
      (∀ e ∈ es, (∀ n ∈ e.sources, n.node_number < g.n_nodes) ∧
        (∀ n ∈ e.targets, n.node_number < g.n_nodes)) →
      c0 + es.length ≤ g.n_edges →
      ∃ H', es.foldlM
          (fun (acc : (Nat → Nat → Int) × Nat) e => do
            let h1 ← writeCol g.n_nodes g.n_edges 1 e.sources acc.2 acc.1
            let h2 ← writeCol g.n_nodes g.n_edges (-1) e.targets acc.2 h1
            pure (h2, acc.2 + 1))
          (H, c0) = some (H', c0 + es.length) ∧
        (∀ r' c', c' < c0 → H' r' c' = H r' c') ∧
        (∀ r' k, ∀ hk : k < es.length,
          H' r' (c0 + k) = colEntry (es.get ⟨k, hk⟩) r' (H r' (c0 + k))) := by
  intro es
  induction es with
  | nil =>
    intro c0 H _ _
    refine ⟨H, by simp, fun r' c' _ => rfl, ?_⟩
    intro r' k hk
    exact absurd hk (by simp)
  | cons e es ih =>
    intro c0 H hwf hcols
    have hc0 : c0 < g.n_edges := by
      have := hcols
      simp only [List.length_cons] at this
      omega
    obtain ⟨hws, hwt⟩ := hwf e (by simp)
    obtain ⟨H1, hw1, hv1⟩ := writeCol_spec g.n_nodes g.n_edges 1
      e.sources c0 H hws hc0
    obtain ⟨H2, hw2, hv2⟩ := writeCol_spec g.n_nodes g.n_edges (-1)
      e.targets c0 H1 hwt hc0
    obtain ⟨H', hfold, hlow, hcol⟩ := ih (c0 + 1) H2
      (fun f hf => hwf f (List.mem_cons_of_mem e hf))
      (by simp only [List.length_cons] at hcols; omega)
    have hH2 : ∀ r' c', H2 r' c' = if c' = c0 then
        colEntry e r' (H r' c') else H r' c' := by
      intro r' c'
      rw [hv2 r' c', hv1 r' c']
      by_cases h1 : c' = c0
      · subst h1
        unfold colEntry
        by_cases h2 : hasNum e.targets r' = true
        · rw [if_pos (And.intro rfl h2), if_pos rfl, if_pos h2]
        · rw [if_neg (fun hcon => h2 hcon.2), if_pos rfl, if_neg h2]
          by_cases h3 : hasNum e.sources r' = true
          · rw [if_pos (And.intro rfl h3), if_pos h3]
          · rw [if_neg (fun hcon => h3 hcon.2), if_neg h3]
      · rw [if_neg (fun hcon => h1 hcon.1), if_neg (fun hcon => h1 hcon.1),
          if_neg h1]
    refine ⟨H', ?_, ?_, ?_⟩
    · rw [List.foldlM_cons]
      simp only [hw1, Option.bind_eq_bind, Option.some_bind, hw2]
      rw [show c0 + (e :: es).length = (c0 + 1) + es.length by
        simp only [List.length_cons]; omega]
      exact hfold
    · intro r' c' hc'
      rw [hlow r' c' (by omega), hH2 r' c', if_neg (by omega)]
    · intro r' k hk
      cases k with
      | zero =>
        have h0 : c0 + 0 = c0 := by omega
        rw [h0, hlow r' c0 (by omega), hH2 r' c0, if_pos rfl]
        rfl
      | succ k' =>
        have hk' : k' < es.length := by
          simp only [List.length_cons] at hk; omega
        have harith : c0 + (k' + 1) = (c0 + 1) + k' := by omega
        rw [harith, hcol r' k' hk', hH2 r' ((c0 + 1) + k'),
          if_neg (by omega)]
        rfl

/-- C4.  For a hypergraph whose stored edges reference only nodes with
sequence numbers inside the allocated rows, with `n_edges` matching the
edge count, and with no node number occurring on both sides of one edge,
`save` writes an `n_nodes × n_edges` matrix whose entry at row `r`,
column `c` is `+1` exactly when a node numbered `r` is a source of the
`c`-th inserted edge, `-1` exactly when it is a target, and `0` exactly
when it is neither. -/
theorem save_incidence {V : Type} (g : Hypergraph V)
    (hwf : ∀ e ∈ g.edges, (∀ n ∈ e.sources, n.node_number < g.n_nodes) ∧
      (∀ n ∈ e.targets, n.node_number < g.n_nodes))
    (hedges : g.n_edges = g.edges.length)
    (hdisj : ∀ e ∈ g.edges, ∀ r : Nat,
      ¬ (hasNum e.sources r = true ∧ hasNum e.targets r = true)) :
    ∃ M, savedMatrix g = some M ∧
      M.length = g.n_nodes ∧
      (∀ row ∈ M, row.length = g.n_edges) ∧
      ∀ r, r < g.n_nodes → ∀ c, ∀ hc : c < g.edges.length,
        (((M.getD r []).getD c 0 = 1) ↔
          hasNum (g.edges.get ⟨c, hc⟩).sources r = true) ∧
        (((M.getD r []).getD c 0 = -1) ↔
          hasNum (g.edges.get ⟨c, hc⟩).targets r = true) ∧
        (((M.getD r []).getD c 0 = 0) ↔
          (hasNum (g.edges.get ⟨c, hc⟩).sources r = false ∧
            hasNum (g.edges.get ⟨c, hc⟩).targets r = false)) := by
  obtain ⟨H', hfold, _, hcol⟩ := incidence_fold_spec g g.edges 0
    (fun _ _ => 0) hwf (by omega)
  have hinc : incidenceFun g = some H' := by
    unfold incidenceFun
    rw [hfold]
  refine ⟨(List.range g.n_nodes).map
    (fun r => (List.range g.n_edges).map (fun c => H' r c)), ?_, ?_, ?_, ?_⟩
  · unfold savedMatrix
    rw [hinc]
  · simp
  · intro row hrow
    obtain ⟨r, _, hr⟩ := List.mem_map.mp hrow
    rw [← hr]
    simp
  · intro r hr c hc
    have hcn : c < g.n_edges := by omega
    have h1 : r < ((List.range g.n_nodes).map
        (fun r => (List.range g.n_edges).map (fun c => H' r c))).length := by
      simp only [List.length_map, List.length_range]
      exact hr
    have hentry : ((((List.range g.n_nodes).map
        (fun r => (List.range g.n_edges).map
          (fun c => H' r c))).getD r []).getD c 0) = H' r c := by
      rw [List.getD_eq_getElem _ _ h1, List.getElem_map, List.getElem_range]
      have h2 : c < ((List.range g.n_edges).map (fun c => H' r c)).length := by
        simp only [List.length_map, List.length_range]
        exact hcn
      rw [List.getD_eq_getElem _ _ h2, List.getElem_map, List.getElem_range]
    rw [hentry]
    have := hcol r c (by omega)
    simp only [Nat.zero_add] at this
    rw [this]
    have hdis := hdisj (g.edges.get ⟨c, hc⟩) (List.get_mem g.edges c hc) r
    unfold colEntry
    by_cases hT : hasNum (g.edges.get ⟨c, hc⟩).targets r = true
    · have hS : hasNum (g.edges.get ⟨c, hc⟩).sources r = false := by
        cases hb : hasNum (g.edges.get ⟨c, hc⟩).sources r with
        | false => rfl
        | true => exact absurd ⟨hb, hT⟩ hdis
      rw [if_pos hT]
      refine ⟨?_, ?_, ?_⟩
      · constructor
        · intro h; exact absurd h (by decide)
        · intro h; rw [h] at hS; exact absurd hS (by decide)
      · exact ⟨fun _ => hT, fun _ => rfl⟩
      · constructor
        · intro h; exact absurd h (by decide)
        · intro h; rw [hT] at h; exact absurd h.2 (by decide)
    · have hT' : hasNum (g.edges.get ⟨c, hc⟩).targets r = false := by
        cases hb : hasNum (g.edges.get ⟨c, hc⟩).targets r with
        | false => rfl
        | true => exact absurd hb hT
      rw [if_neg hT]
      by_cases hS : hasNum (g.edges.get ⟨c, hc⟩).sources r = true
      · rw [if_pos hS]
        refine ⟨⟨fun _ => hS, fun _ => rfl⟩, ?_, ?_⟩
        · constructor
          · intro h; exact absurd h (by decide)
          · intro h; rw [h] at hT'; exact absurd hT' (by decide)
        · constructor
          · intro h; exact absurd h (by decide)
          · intro h; rw [hS] at h; exact absurd h.1 (by decide)
      · have hS' : hasNum (g.edges.get ⟨c, hc⟩).sources r = false := by
          cases hb : hasNum (g.edges.get ⟨c, hc⟩).sources r with
          | false => rfl
          | true => exact absurd hb hS
        rw [if_neg hS]
        refine ⟨?_, ?_, ⟨fun _ => ⟨hS', hT'⟩, fun _ => rfl⟩⟩
        · constructor
          · intro h; exact absurd h (by decide)
          · intro h; rw [h] at hS'; exact absurd hS' (by decide)
        · constructor
          · intro h; exact absurd h (by decide)
          · intro h; rw [h] at hT'; exact absurd hT' (by decide)

/-- Witness for C4: on the two-node one-edge graph with node 0 a source
and node 1 a target, `save` produces exactly the matrix `[[+1], [-1]]`,
and the entry characterisation holds. -/
theorem save_incidence_witness :
    (∃ M, savedMatrix gAB = some M ∧
      M.length = gAB.n_nodes ∧
      (∀ row ∈ M, row.length = gAB.n_edges) ∧
      ∀ r, r < gAB.n_nodes → ∀ c, ∀ hc : c < gAB.edges.length,
        (((M.getD r []).getD c 0 = 1) ↔
          hasNum (gAB.edges.get ⟨c, hc⟩).sources r = true) ∧
        (((M.getD r []).getD c 0 = -1) ↔
          hasNum (gAB.edges.get ⟨c, hc⟩).targets r = true) ∧
        (((M.getD r []).getD c 0 = 0) ↔
          (hasNum (gAB.edges.get ⟨c, hc⟩).sources r = false ∧
            hasNum (gAB.edges.get ⟨c, hc⟩).targets r = false))) ∧
    savedMatrix gAB = some [[1], [-1]] :=
  ⟨save_incidence gAB (by decide) (by decide)
      (by
        intro e he r hcon
        have he2 : e ∈ [eAB] := he
        have he' : e = eAB := List.mem_singleton.mp he2
        subst he'
        obtain ⟨h1, h2⟩ := hcon
        have h1' : ((0 == r) || false) = true := h1
        have h2' : ((1 == r) || false) = true := h2
        have e1 : (0 : Nat) = r := by simpa using h1'
        have e2 : (1 : Nat) = r := by simpa using h2'
        omega),
    by decide⟩

/-! ### C8: invariants of every reachable hypergraph state -/

/-- `add_node` either leaves the state untouched (duplicate hit) or
appends exactly one node everywhere. -/
theorem add_node_state_cases {V : Type} (dist : V → V → ℚ)
    (emb : String → V) (g : Hypergraph V) (s : String) :
    (Hypergraph.add_node dist emb g s).2 = g ∨
    (Hypergraph.add_node dist emb g s).2 =
      { g with
          nodes := g.nodes ++ [{ id := g.nextId, data := s, node_number := g.n_nodes }],
          indexVecs := g.indexVecs ++ [emb (clean_string s)],
          index_objs := g.index_objs ++
            [Entity.node { id := g.nextId, data := s, node_number := g.n_nodes }],
          n_nodes := g.n_nodes + 1,
          nextId := g.nextId + 1 } := by
  unfold Hypergraph.add_node
  cases hn : nearest1 dist (emb s) g.indexVecs with
  | none => right; rfl
  | some p =>
    obtain ⟨i, d⟩ := p
    by_cases hd : dupEps < d
    · right
      simp only [hd, if_true]
    · left
      simp only [hd, if_false]

/-- C8.  Every state reachable by completed `add_node`/`add_edge` calls
satisfies the parallel-index invariants: slot count equals
`|nodes| + |edges|`; the object list restricted to nodes (resp. edges)
is exactly the node (resp. edge) store, so slot `i` holds the entity
inserted at position `i`; the counters match the store sizes; node
sequence numbers are exactly `0, …, n_nodes-1` in creation order; and
further operations never rewrite existing nodes — `add_node` only
appends and `add_edge` leaves the node store untouched, so a node's
sequence number never changes. -/
theorem reachable_invariants {V : Type} (dist : V → V → ℚ)
    (emb : String → V) (g : Hypergraph V)
    (h : Reachable dist emb g) :
    g.indexVecs.length = g.index_objs.length ∧
    g.index_objs.length = g.nodes.length + g.edges.length ∧
    g.n_nodes = g.nodes.length ∧
    g.n_edges = g.edges.length ∧
    g.nodes.map Node.node_number = List.range g.nodes.length ∧
    g.nodes = g.index_objs.filterMap asNode ∧
    g.edges = g.index_objs.filterMap asEdge ∧
    (∀ s : String, ∃ rest,
      (Hypergraph.add_node dist emb g s).2.nodes = g.nodes ++ rest) ∧
    (∀ ss ts : List Node, ∀ rel : String,
      (Hypergraph.add_edge emb g ss ts rel).2.nodes = g.nodes) := by
  have hext : ∀ g' : Hypergraph V, ∀ s : String, ∃ rest,
      (Hypergraph.add_node dist emb g' s).2.nodes = g'.nodes ++ rest := by
    intro g' s
    rcases add_node_state_cases dist emb g' s with hcase | hcase
    · exact ⟨[], by rw [hcase, List.append_nil]⟩
    · exact ⟨_, by rw [hcase]⟩
  induction h with
  | init =>
    refine ⟨rfl, rfl, rfl, rfl, rfl, rfl, rfl, hext _, fun _ _ _ => rfl⟩
  | addNodeStep g s hg ih =>
    obtain ⟨ih1, ih2, ih3, ih4, ih5, ih6, ih7, _, _⟩ := ih
    rcases add_node_state_cases dist emb g s with hcase | hcase
    · rw [hcase]
      exact ⟨ih1, ih2, ih3, ih4, ih5, ih6, ih7, hext _, fun _ _ _ => rfl⟩
    · rw [hcase]
      refine ⟨?_, ?_, ?_, ?_, ?_, ?_, ?_, hext _, fun _ _ _ => rfl⟩
      · simp only [List.length_append, List.length_singleton]
        omega
      · simp only [List.length_append, List.length_singleton]
        omega
      · simp only [List.length_append, List.length_singleton]
        omega
      · exact ih4
      · simp only [List.map_append, List.length_append,
          List.length_singleton, ih5, ih3]
        rw [List.range_succ]
        rfl
      · rw [List.filterMap_append, ← ih6]
        rfl
      · rw [List.filterMap_append, ← ih7]
        simp [asEdge]
  | addEdgeStep g ss ts rel hg ih =>
    obtain ⟨ih1, ih2, ih3, ih4, ih5, ih6, ih7, _, _⟩ := ih
    refine ⟨?_, ?_, ih3, ?_, ih5, ?_, ?_, hext _, fun _ _ _ => rfl⟩
    · simp only [Hypergraph.add_edge, List.length_append,
        List.length_singleton]
      omega
    · simp only [Hypergraph.add_edge, List.length_append,
        List.length_singleton]
      omega
    · simp only [Hypergraph.add_edge, List.length_append,
        List.length_singleton]
      omega
    · simp only [Hypergraph.add_edge]
      rw [List.filterMap_append, ← ih6]
      simp [asNode]
    · simp only [Hypergraph.add_edge]
      rw [List.filterMap_append, ← ih7]
      rfl

/-- Witness for C8: the invariants hold for the concrete state reached
by one `add_node` call on a fresh hypergraph. -/
theorem reachable_invariants_witness :
    ((Hypergraph.add_node strDist strEmb
        (Hypergraph.init String) "a").2.indexVecs.length =
      (Hypergraph.add_node strDist strEmb
        (Hypergraph.init String) "a").2.index_objs.length) ∧
    ((Hypergraph.add_node strDist strEmb
        (Hypergraph.init String) "a").2.index_objs.length =
      (Hypergraph.add_node strDist strEmb
        (Hypergraph.init String) "a").2.nodes.length +
      (Hypergraph.add_node strDist strEmb
        (Hypergraph.init String) "a").2.edges.length) ∧
    ((Hypergraph.add_node strDist strEmb
        (Hypergraph.init String) "a").2.n_nodes =
      (Hypergraph.add_node strDist strEmb
        (Hypergraph.init String) "a").2.nodes.length) ∧
    ((Hypergraph.add_node strDist strEmb
        (Hypergraph.init String) "a").2.n_edges =
      (Hypergraph.add_node strDist strEmb
        (Hypergraph.init String) "a").2.edges.length) ∧
    ((Hypergraph.add_node strDist strEmb
        (Hypergraph.init String) "a").2.nodes.map Node.node_number =
      List.range (Hypergraph.add_node strDist strEmb
        (Hypergraph.init String) "a").2.nodes.length) ∧
    ((Hypergraph.add_node strDist strEmb
        (Hypergraph.init String) "a").2.nodes =
      (Hypergraph.add_node strDist strEmb
        (Hypergraph.init String) "a").2.index_objs.filterMap asNode) ∧
    ((Hypergraph.add_node strDist strEmb
        (Hypergraph.init String) "a").2.edges =
      (Hypergraph.add_node strDist strEmb
        (Hypergraph.init String) "a").2.index_objs.filterMap asEdge) ∧
    (∀ s : String, ∃ rest,
      (Hypergraph.add_node strDist strEmb
        (Hypergraph.add_node strDist strEmb
          (Hypergraph.init String) "a").2 s).2.nodes =
      (Hypergraph.add_node strDist strEmb
        (Hypergraph.init String) "a").2.nodes ++ rest) ∧
    (∀ ss ts : List Node, ∀ rel : String,
      (Hypergraph.add_edge strEmb
        (Hypergraph.add_node strDist strEmb
          (Hypergraph.init String) "a").2 ss ts rel).2.nodes =
      (Hypergraph.add_node strDist strEmb
        (Hypergraph.init String) "a").2.nodes) :=
  reachable_invariants strDist strEmb
    (Hypergraph.add_node strDist strEmb (Hypergraph.init String) "a").2
    (Reachable.addNodeStep (Hypergraph.init String) "a" Reachable.init)

/-! ### C5: disjointness of sources and targets -/

theorem slotSpec_append_node (ss : List String) (objs : List Entity)
    (n : Node) (h : SlotSpec ss objs) (hlen : ss.length = objs.length) :
    SlotSpec (ss ++ [clean_string n.data]) (objs ++ [Entity.node n]) := by
  intro i h1 h2
  by_cases hi : i < ss.length
  · have hio : i < objs.length := by omega
    have e1 : (ss ++ [clean_string n.data]).get ⟨i, h1⟩ = ss.get ⟨i, hi⟩ := by
      rw [List.get_eq_getElem, List.get_eq_getElem]
      exact List.getElem_append_left hi
    have e2 : (objs ++ [Entity.node n]).get ⟨i, h2⟩ = objs.get ⟨i, hio⟩ := by
      rw [List.get_eq_getElem, List.get_eq_getElem]
      exact List.getElem_append_left hio
    rw [e1, e2]
    exact h i hi hio
  · have hieq : i = ss.length := by
      simp only [List.length_append, List.length_singleton] at h1
      omega
    have e1 : (ss ++ [clean_string n.data]).get ⟨i, h1⟩ =
        clean_string n.data := by
      rw [List.get_eq_getElem]
      subst hieq
      exact List.getElem_concat_length ss _ ss.length rfl h1
    have hieq2 : i = objs.length := by omega
    have e2 : (objs ++ [Entity.node n]).get ⟨i, h2⟩ = Entity.node n := by
      rw [List.get_eq_getElem]
      subst hieq2
      exact List.getElem_concat_length objs _ objs.length rfl h2
    rw [e1, e2]
    constructor
    · intro m hm
      injection hm with hm'
      rw [← hm']
    · intro e he
      exact absurd he (by simp)

/-- The two loops of `add_knowledge`, characterised under a faithful
embedder.  Provided (i) embedding distance is below the duplicate
threshold exactly when the cleaned texts agree, (ii) the index is the
embedded image of a slot-consistent string list, and (iii) no processed
concept cleans to the composite description of an indexed edge, the loop
completes without the `AttributeError` crash, preserves (ii), adds no
edge slots, and every collected node `n` satisfies
`clean (clean n.data) = clean x` for its concept `x` (assuming the
concepts re-clean to themselves). -/
theorem collectNodes_spec {V : Type} (dist : V → V → ℚ)
    (emb : String → V)
    (hembIff : ∀ a b : String,
      dist (emb a) (emb b) ≤ dupEps ↔ clean_string a = clean_string b) :
    ∀ (xs : List String) (g' : Hypergraph V) (acc : List Node)
      (ss' : List String),
      g'.indexVecs = ss'.map emb →
      ss'.length = g'.index_objs.length →
      SlotSpec ss' g'.index_objs →
      (∀ x ∈ xs, ∀ e : Hyperedge, Entity.edge e ∈ g'.index_objs →
        clean_string x ≠
          clean_string (indexTermOf e.sources e.targets e.relation)) →
      (∀ x ∈ xs, clean_string (clean_string x) = clean_string x) →
      ∃ out g'' ss'',
        collectNodes dist emb xs g' acc = some (out, g'') ∧
        g''.indexVecs = ss''.map emb ∧
        ss''.length = g''.index_objs.length ∧
        SlotSpec ss'' g''.index_objs ∧
        (∀ e : Hyperedge,
          Entity.edge e ∈ g''.index_objs ↔ Entity.edge e ∈ g'.index_objs) ∧
        (∀ n, n ∈ out → n ∈ acc ∨
          ∃ x ∈ xs, clean_string (clean_string n.data) = clean_string x) := by
  intro xs
  induction xs with
  | nil =>
    intro g' acc ss' hvecs hlen hspec _ _
    refine ⟨acc, g', ss', rfl, hvecs, hlen, hspec, fun e => Iff.rfl, ?_⟩
    intro n hn
    exact Or.inl hn
  | cons x xs ih =>
    intro g' acc ss' hvecs hlen hspec hker hfix
    have hlss : ss'.length = g'.indexVecs.length := by
      rw [hvecs, List.length_map]
    -- case analysis on the nearest-neighbour search for `x`
    have hbr := add_node_branches dist emb g' x (by omega)
    cases hn : nearest1 dist (emb x) g'.indexVecs with
    | none =>
      -- creation branch
      have hcreate := hbr.2.2 (Or.inl hn)
      obtain ⟨out, g'', ss'', hcoll, hv2, hl2, hs2, he2, hprop⟩ :=
        ih (Hypergraph.add_node dist emb g' x).2
          (setAdd acc { id := g'.nextId, data := x, node_number := g'.n_nodes })
          (ss' ++ [clean_string x])
          (by rw [hcreate]
              show g'.indexVecs ++ [emb (clean_string x)] = _
              rw [hvecs, List.map_append]
              rfl)
          (by rw [hcreate]
              show _ = (g'.index_objs ++ [Entity.node _]).length
              simp only [List.length_append, List.length_singleton]
              omega)
          (by rw [hcreate]
              show SlotSpec (ss' ++ [clean_string x])
                (g'.index_objs ++ [Entity.node
                  { id := g'.nextId, data := x, node_number := g'.n_nodes }])
              exact slotSpec_append_node ss' g'.index_objs
                  { id := g'.nextId, data := x, node_number := g'.n_nodes }
                  hspec hlen)
          (by intro y hy e he
              rw [hcreate] at he
              have he' : Entity.edge e ∈ g'.index_objs := by
                rcases List.mem_append.mp he with h | h
                · exact h
                · exact absurd (List.mem_singleton.mp h) (by simp)
              exact hker y (List.mem_cons_of_mem x hy) e he')
          (fun y hy => hfix y (List.mem_cons_of_mem x hy))
      refine ⟨out, g'', ss'', ?_, hv2, hl2, hs2, ?_, ?_⟩
      · show collectNodes dist emb (x :: xs) g' acc = some (out, g'')
        unfold collectNodes
        rw [hcreate] at hcoll ⊢
        exact hcoll
      · intro e
        rw [he2 e, hcreate]
        show Entity.edge e ∈ g'.index_objs ++ [Entity.node _] ↔ _
        constructor
        · intro h
          rcases List.mem_append.mp h with h | h
          · exact h
          · exact absurd (List.mem_singleton.mp h) (by simp)
        · exact fun h => List.mem_append_left _ h
      · intro n hn'
        rcases hprop n hn' with hacc | ⟨y, hy, hcl⟩
        · rcases (setAdd_mem acc _ n).mp hacc with h | h
          · exact Or.inl h
          · refine Or.inr ⟨x, by simp, ?_⟩
            rw [h]
            exact hfix x (by simp)
        · exact Or.inr ⟨y, List.mem_cons_of_mem x hy, hcl⟩
    | some p =>
      obtain ⟨i, d⟩ := p
      obtain ⟨hi, hd, _⟩ := nearest1_spec dist (emb x) g'.indexVecs i d hn
      by_cases hdup : dupEps < d
      · -- distance above the threshold: creation branch again
        have hcreate := hbr.2.2 (Or.inr ⟨i, d, hn, hdup⟩)
        obtain ⟨out, g'', ss'', hcoll, hv2, hl2, hs2, he2, hprop⟩ :=
          ih (Hypergraph.add_node dist emb g' x).2
            (setAdd acc { id := g'.nextId, data := x, node_number := g'.n_nodes })
            (ss' ++ [clean_string x])
            (by rw [hcreate]
                show g'.indexVecs ++ [emb (clean_string x)] = _
                rw [hvecs, List.map_append]
                rfl)
            (by rw [hcreate]
                show _ = (g'.index_objs ++ [Entity.node _]).length
                simp only [List.length_append, List.length_singleton]
                omega)
            (by rw [hcreate]
                show SlotSpec (ss' ++ [clean_string x])
                  (g'.index_objs ++ [Entity.node
                    { id := g'.nextId, data := x, node_number := g'.n_nodes }])
                exact slotSpec_append_node ss' g'.index_objs
                  { id := g'.nextId, data := x, node_number := g'.n_nodes }
                  hspec hlen)
            (by intro y hy e he
                rw [hcreate] at he
                have he' : Entity.edge e ∈ g'.index_objs := by
                  rcases List.mem_append.mp he with h | h
                  · exact h
                  · exact absurd (List.mem_singleton.mp h) (by simp)
                exact hker y (List.mem_cons_of_mem x hy) e he')
            (fun y hy => hfix y (List.mem_cons_of_mem x hy))
        refine ⟨out, g'', ss'', ?_, hv2, hl2, hs2, ?_, ?_⟩
        · show collectNodes dist emb (x :: xs) g' acc = some (out, g'')
          unfold collectNodes
          rw [hcreate] at hcoll ⊢
          exact hcoll
        · intro e
          rw [he2 e, hcreate]
          show Entity.edge e ∈ g'.index_objs ++ [Entity.node _] ↔ _
          constructor
          · intro h
            rcases List.mem_append.mp h with h | h
            · exact h
            · exact absurd (List.mem_singleton.mp h) (by simp)
          · exact fun h => List.mem_append_left _ h
        · intro n hn'
          rcases hprop n hn' with hacc | ⟨y, hy, hcl⟩
          · rcases (setAdd_mem acc _ n).mp hacc with h | h
            · exact Or.inl h
            · refine Or.inr ⟨x, by simp, ?_⟩
              rw [h]
              exact hfix x (by simp)
          · exact Or.inr ⟨y, List.mem_cons_of_mem x hy, hcl⟩
      · -- duplicate hit: the slot must hold a node with matching text
        have hle : d ≤ dupEps := le_of_not_lt hdup
        have hio : i < g'.index_objs.length := by omega
        obtain ⟨hi2, heq⟩ := hbr.2.1 i d hn hle
        have hiss : i < ss'.length := by omega
        have hget : g'.indexVecs.getD i (emb x) =
            emb (ss'.get ⟨i, hiss⟩) := by
          rw [List.getD_eq_getElem _ _ hi, List.getElem_of_eq hvecs hi,
            List.getElem_map]
          rfl
        have hclx : clean_string x = clean_string (ss'.get ⟨i, hiss⟩) := by
          rw [hget] at hd
          exact (hembIff x _).mp (hd ▸ hle)
        cases hobj : g'.index_objs.get ⟨i, hi2⟩ with
        | edge e =>
          exfalso
          have hterm := (hspec i hiss hi2).2 e hobj
          have hmem : Entity.edge e ∈ g'.index_objs := by
            rw [← hobj]
            exact List.get_mem _ _ _
          exact hker x (by simp) e hmem (by rw [hclx, hterm])
        | node m =>
          have htext := (hspec i hiss hi2).1 m hobj
          obtain ⟨out, g'', ss'', hcoll, hv2, hl2, hs2, he2, hprop⟩ :=
            ih g' (setAdd acc m) ss' hvecs hlen hspec
              (fun y hy e he => hker y (List.mem_cons_of_mem x hy) e he)
              (fun y hy => hfix y (List.mem_cons_of_mem x hy))
          refine ⟨out, g'', ss'', ?_, hv2, hl2, hs2, he2, ?_⟩
          · show collectNodes dist emb (x :: xs) g' acc = some (out, g'')
            unfold collectNodes
            rw [heq]
            have hge : g'.index_objs.get ⟨i, hi2⟩ = Entity.node m := hobj
            rw [hge]
            exact hcoll
          · intro n hn'
            rcases hprop n hn' with hacc | ⟨y, hy, hcl⟩
            · rcases (setAdd_mem acc m n).mp hacc with h | h
              · exact Or.inl h
              · refine Or.inr ⟨x, by simp, ?_⟩
                rw [h, ← htext, ← hclx]
            · exact Or.inr ⟨y, List.mem_cons_of_mem x hy, hcl⟩

/-- C5 (counterexample to the claim as stated): even with an ideal
embedder (distance below the threshold exactly when the cleaned texts
agree) and even through the validated `add_knowledge` path, the call
`add_knowledge(["! a"], ["a"], "rel")` on a fresh hypergraph stores a
hyperedge whose source set and target set contain the very same node —
validation compares `clean "! a" = " a"` against `clean "a" = "a"` and
passes, but the index holds the embedding of the cleaned text `" a"`,
onto which the raw target text `"a"` then deduplicates.  (`add_edge`
itself checks nothing, so a direct `add_edge({n}, {n}, r)` violates the
invariant as well.) -/
theorem edge_disjoint_cex :
    RAGSystem.add_knowledge strDist strEmb (Hypergraph.init String)
        ["! a"] ["a"] "rel" = KnowledgeOutcome.added eBad gBad ∧
    eBad ∈ gBad.edges ∧ nBad ∈ eBad.sources ∧ nBad ∈ eBad.targets := by
  decide

/-- C5 (amended).  `add_edge` enforces nothing, and `add_knowledge`
validates only the single-cleaned input strings while the index stores
embeddings of cleaned texts; the disjointness invariant therefore holds
for edges created by `add_knowledge` under an ideal embedder (distance
below the threshold exactly when cleaned texts agree), provided the
index is slot-consistent, no input concept cleans to an indexed edge's
composite description, and every input's cleaned form is a fixed point
of cleaning: then no source node and target node of the new edge share
a normalized text. -/
theorem add_knowledge_disjoint {V : Type} (dist : V → V → ℚ)
    (emb : String → V)
    (hembIff : ∀ a b : String,
      dist (emb a) (emb b) ≤ dupEps ↔ clean_string a = clean_string b)
    (g : Hypergraph V) (ss : List String)
    (hvecs : g.indexVecs = ss.map emb)
    (hlen : ss.length = g.index_objs.length)
    (hspec : SlotSpec ss g.index_objs)
    (concepts related_concepts : List String) (relation : String)
    (hker : ∀ x ∈ concepts ++ related_concepts, ∀ e : Hyperedge,
      Entity.edge e ∈ g.index_objs →
      clean_string x ≠
        clean_string (indexTermOf e.sources e.targets e.relation))
    (hfix : ∀ x ∈ concepts ++ related_concepts,
      clean_string (clean_string x) = clean_string x)
    (e : Hyperedge) (gf : Hypergraph V)
    (hadd : RAGSystem.add_knowledge dist emb g concepts related_concepts
      relation = KnowledgeOutcome.added e gf) :
    ∀ ns ∈ e.sources, ∀ nt ∈ e.targets,
      clean_string ns.data ≠ clean_string nt.data := by
  unfold RAGSystem.add_knowledge at hadd
  split at hadd
  · exact absurd hadd (by simp)
  · split at hadd
    · exact absurd hadd (by simp)
    · split at hadd
      · exact absurd hadd (by simp)
      · rename_i hblank hempty hnoov
        obtain ⟨srcs, g1, ss1, hc1, hv1, hl1, hs1, hedge1, hprop1⟩ :=
          collectNodes_spec dist emb hembIff concepts g [] ss hvecs hlen hspec
            (fun x hx f hf => hker x (List.mem_append_left _ hx) f hf)
            (fun x hx => hfix x (List.mem_append_left _ hx))
        obtain ⟨tgts, g2, ss2, hc2, hv2, hl2, hs2, hedge2, hprop2⟩ :=
          collectNodes_spec dist emb hembIff related_concepts g1 [] ss1
            hv1 hl1 hs1
            (fun x hx f hf => hker x (List.mem_append_right _ hx) f
              ((hedge1 f).mp hf))
            (fun x hx => hfix x (List.mem_append_right _ hx))
        split at hadd
        · exact absurd hadd (by simp)
        · rename_i srcs' g1' hc1'
          rw [hc1] at hc1'
          injection hc1' with hc1''
          injection hc1'' with hsrc hg1
          subst hsrc hg1
          split at hadd
          · exact absurd hadd (by simp)
          · rename_i tgts' g2' hc2'
            rw [hc2] at hc2'
            injection hc2' with hc2''
            injection hc2'' with htgt hg2
            subst htgt hg2
            injection hadd with he hgf
            subst hgf
            intro ns hns nt hnt hcl
            have hns' : ns ∈ srcs := by
              rw [← he] at hns
              exact hns
            have hnt' : nt ∈ tgts := by
              rw [← he] at hnt
              exact hnt
            rcases hprop1 ns hns' with habs | ⟨s, hs, hs2c⟩
            · exact absurd habs (List.not_mem_nil ns)
            rcases hprop2 nt hnt' with habs | ⟨t, ht, ht2c⟩
            · exact absurd habs (List.not_mem_nil nt)
            have hst : clean_string s = clean_string t := by
              have := congrArg clean_string hcl
              rw [hs2c, ht2c] at this
              exact this
            apply hnoov
            refine List.any_eq_true.mpr ⟨s, hs, ?_⟩
            have hmem : clean_string t ∈
                related_concepts.map clean_string :=
              List.mem_map_of_mem clean_string ht
            rw [hst]
            exact List.elem_iff.mpr hmem

/-- Witness for C5 (amended): `add_knowledge(["A"], ["B"], "rel")` on a
fresh hypergraph with the concrete embedder creates the edge
`A -rel-> B`, and its source and target nodes have distinct normalized
texts. -/
theorem add_knowledge_disjoint_witness :
    (RAGSystem.add_knowledge strDist strEmb (Hypergraph.init String)
        ["A"] ["B"] "rel" = KnowledgeOutcome.added eAB gAB) ∧
    ∀ ns ∈ eAB.sources, ∀ nt ∈ eAB.targets,
      clean_string ns.data ≠ clean_string nt.data :=
  ⟨by decide,
    add_knowledge_disjoint strDist strEmb strDist_le_dupEps_iff
      (Hypergraph.init String) [] rfl rfl
      (by intro i h1 h2; exact absurd h1 (by simp))
      ["A"] ["B"] "rel"
      (by intro x hx f hf; exact absurd hf (List.not_mem_nil _))
      (by decide)
      eAB gAB (by decide)⟩

end DHG
